import Mathlib

/-!
Verification of the `linea` command runner and its `lineash` script
interpreter.  Strings are modelled as `List Char`; Go maps are modelled as
association lists (lookup = first match, which matches Go map semantics when
keys are distinct; iteration order is quantified over because Go randomizes
it).  Go's 64-bit integers are modelled as `Int` with explicit wrapping.
-/

namespace Linea

/-- Convert a Lean string literal to the `List Char` representation. -/
def str (s : String) : List Char := s.toList

abbrev Str := List Char

/-- Go `unicode.IsSpace` restricted to the ASCII space characters
(' ', '\t', '\n', '\v', '\f', '\r'), which is exact for ASCII input. -/
def isSpaceGo (c : Char) : Bool :=
  c = ' ' ∨ c = '\t' ∨ c = '\n' ∨ c = '\x0b' ∨ c = '\x0c' ∨ c = '\r'

/-- Go `strings.TrimSpace`. -/
def trimSpace (s : Str) : Str :=
  ((s.dropWhile isSpaceGo).reverse.dropWhile isSpaceGo).reverse

/-- Go `strings.Trim` with an explicit cutset: removes leading and trailing
characters that are members of `cutset`. -/
def trimChars (cutset : List Char) (s : Str) : Str :=
  ((s.dropWhile (· ∈ cutset)).reverse.dropWhile (· ∈ cutset)).reverse

/-- Occurrence test for a pattern inside a string: Go `strings.Contains`. -/
def occursB (pat : Str) : Str → Bool
  | [] => pat.isPrefixOf []
  | c :: rest => pat.isPrefixOf (c :: rest) || occursB pat rest

/-- Index of the first occurrence of `pat`: Go `strings.Index`
(`none` plays the role of Go's `-1`). -/
def findFirst (pat : Str) : Str → Option Nat
  | [] => if pat.isPrefixOf [] then some 0 else none
  | c :: rest =>
    if pat.isPrefixOf (c :: rest) then some 0
    else (findFirst pat rest).map (· + 1)

/-- Worker for `replaceAll`, with the (nonempty) pattern split into its
head and tail, and a fuel argument (instantiated to the string length by
the wrapper) keeping the recursion structural. -/
def replaceAllAux (p0 : Char) (ptail rep : Str) : Nat → Str → Str
  | _, [] => []
  | 0, s => s
  | fuel + 1, c :: rest =>
    if (p0 :: ptail).isPrefixOf (c :: rest) then
      rep ++ replaceAllAux p0 ptail rep fuel (rest.drop ptail.length)
    else
      c :: replaceAllAux p0 ptail rep fuel rest

/-- Go `strings.ReplaceAll` for a nonempty pattern: replaces
non-overlapping occurrences left to right.  (All patterns used by the
program are nonempty; an empty pattern is treated as no occurrence.) -/
def replaceAll (pat rep : Str) (s : Str) : Str :=
  match pat with
  | [] => s
  | p0 :: ptail => replaceAllAux p0 ptail rep s.length s

/-- ASCII digit test. -/
def isDigitGo (c : Char) : Bool := '0' ≤ c ∧ c ≤ '9'

/-- ASCII letter test. -/
def isLetterGo (c : Char) : Bool := ('a' ≤ c ∧ c ≤ 'z') ∨ ('A' ≤ c ∧ c ≤ 'Z')

/-- A character allowed inside a `$name` reference (letters, digits,
underscore), as in the Go code's explicit range checks. -/
def isNameChar (c : Char) : Bool := isLetterGo c ∨ isDigitGo c ∨ c = '_'

/-- A character allowed to start a `$name` reference (letter or
underscore; digits start positional parameters). -/
def isNameStart (c : Char) : Bool := isLetterGo c ∨ c = '_'

def maxInt64 : Int := 9223372036854775807
def minInt64 : Int := -9223372036854775808

/-- Two's-complement wrap-around into the `int64` range, modelling Go's
defined signed-overflow behaviour. -/
def wrap64 (x : Int) : Int :=
  (x + 9223372036854775808) % 18446744073709551616 - 9223372036854775808

/-- Value of a nonempty all-digit string. -/
def digitsToNat? (s : Str) : Option Nat :=
  if s ≠ [] ∧ s.all isDigitGo then
    some (s.foldl (fun a c => a * 10 + (c.toNat - 48)) 0)
  else none

/-- Go `strconv.Atoi`: optional sign, then at least one digit, with an
`int64` range check (Go reports an error on overflow). -/
def atoi (s : Str) : Option Int :=
  match digitsToNat? (if s.head? = some '+' ∨ s.head? = some '-' then s.drop 1 else s) with
  | none => none
  | some m =>
    let v : Int := (if s.head? = some '-' then -1 else 1) * m
    if minInt64 ≤ v ∧ v ≤ maxInt64 then some v else none

/-- Render an integer in decimal, Go `strconv.Itoa`. -/
def natDigitsAux : Nat → Nat → Str
  | 0, _ => []
  | fuel + 1, n =>
    if n < 10 then [Char.ofNat (48 + n)]
    else natDigitsAux fuel (n / 10) ++ [Char.ofNat (48 + n % 10)]

def natDigits (n : Nat) : Str := natDigitsAux (n + 1) n

def intToStr (n : Int) : Str :=
  if n < 0 then '-' :: natDigits n.natAbs else natDigits n.natAbs

/-- The five operator characters of `evaluateArithmetic`. -/
def isOpChar (c : Char) : Bool :=
  c = '+' ∨ c = '-' ∨ c = '*' ∨ c = '/' ∨ c = '%'

/-- The splitting loop of `evaluateArithmetic` (lineash.go): accumulates a
current chunk, pushes the trimmed chunk before each operator character, and
pushes each operator as its own one-character part. -/
def splitArithAux (current : Str) : Str → List Str
  | [] => if current = [] then [] else [trimSpace current]
  | c :: rest =>
    if isOpChar c then
      (if current = [] then [] else [trimSpace current]) ++
        [c] :: splitArithAux [] rest
    else splitArithAux (current ++ [c]) rest

def splitArith (s : Str) : List Str := splitArithAux [] s

/-- One `switch op` step of `evaluateArithmetic`'s application loop,
including Go's wrap-around arithmetic and the division/modulo-by-zero
guards; an unrecognized operator leaves the result unchanged. -/
def arithStep (r : Int) (op : Str) (v : Int) : Int :=
  match op with
  | ['+'] => wrap64 (r + v)
  | ['-'] => wrap64 (r - v)
  | ['*'] => wrap64 (r * v)
  | ['/'] => if v = 0 then r else wrap64 (Int.tdiv r v)
  | ['%'] => if v = 0 then r else wrap64 (Int.tmod r v)
  | _ => r

/-- The `for i := 1; i < len(parts); i += 2` loop of `evaluateArithmetic`:
consumes `operator, value` pairs; a pair whose value does not parse is
skipped (`continue`); a trailing lone operator stops the loop (`break`). -/
def applyOps (r : Int) : List Str → Int
  | [] => r
  | [_] => r
  | op :: num :: rest =>
    match atoi num with
    | some v => applyOps (arithStep r op v) rest
    | none => applyOps r rest

/-- `evaluateArithmetic` (lineash.go lines 364-434). -/
def evaluateArithmetic (expr : Str) : Str :=
  let e := trimSpace expr
  match atoi e with
  | some v => intToStr v
  | none =>
    match splitArith e with
    | [] => str "0"
    | p0 :: rest =>
      match atoi p0 with
      | none => str "0"
      | some r => intToStr (applyOps r rest)

/-! ### Variable maps

Go maps are modelled as association lists: lookup takes the first match
(well-defined because the program never stores duplicate keys), and map
assignment replaces an existing entry or appends a new one.  Iteration
order in Go is randomized, so theorems quantify over the enumeration
order where it matters. -/

abbrev VarMap := List (Str × Str)

def lookupL (k : Str) : VarMap → Option Str
  | [] => none
  | (k2, v) :: rest => if k2 = k then some v else lookupL k rest

def insertL (k v : Str) (m : VarMap) : VarMap :=
  if (lookupL k m).isSome then
    m.map (fun e => if e.1 = k then (k, v) else e)
  else m ++ [(k, v)]

/-- Copy `base`, then write every entry of `over` on top (override wins),
as done by the merge loops in `BuildCommand`. -/
def mergeMaps (base over : VarMap) : VarMap :=
  over.foldl (fun acc e => insertL e.1 e.2 acc) base

/-! ### Separate-map substitution (utils.go `SubstituteVariablesWithSeparateMaps`)

The `$VAR` replacement loop in the Go source re-searches the whole string
from the start after every step and, when the first occurrence is followed
by a name character, leaves the string unchanged and loops again on the
identical state — i.e. it never terminates.  `SubstRes.diverge` models
exactly that case; `fuelOut` only signals insufficient fuel. -/

inductive SubstRes where
  | ok (s : Str)
  | diverge
  | fuelOut
deriving DecidableEq

/-- The brace placeholder `"{" + key + "}"`. -/
def bracePat (k : Str) : Str := '\x7b' :: (k ++ ['\x7d'])

/-- The braced sigil placeholder `"${" + key + "}"`. -/
def dollarBracePat (k : Str) : Str := '$' :: bracePat k

/-- The `for { idx := strings.Index(result, "$"+key); ... }` loop: replaces
the first occurrence when the following character is not a name character
(or the occurrence ends the string), otherwise the Go loop spins forever
on an unchanged string, modelled as `diverge`. -/
def dollarLoop (k v : Str) : Nat → Str → SubstRes
  | 0, _ => .fuelOut
  | fuel + 1, s =>
    match findFirst ('$' :: k) s with
    | none => .ok s
    | some idx =>
      let afterIdx := idx + ('$' :: k).length
      let boundaryOk : Bool :=
        match s[afterIdx]? with
        | none => true
        | some c => ! isNameChar c
      if boundaryOk then dollarLoop k v fuel (s.take idx ++ v ++ s.drop afterIdx)
      else .diverge

/-- Per-key sigil substitution: `${key}` by plain `ReplaceAll` first, then
the `$key` loop. -/
def substKeyDollar (fuel : Nat) (k v s : Str) : SubstRes :=
  dollarLoop k v fuel (replaceAll (dollarBracePat k) v s)

def substDollarAll (fuel : Nat) : VarMap → Str → SubstRes
  | [], s => .ok s
  | (k, v) :: rest, s =>
    match substKeyDollar fuel k v s with
    | .ok s2 => substDollarAll fuel rest s2
    | r => r

/-- The first loop of `SubstituteVariablesWithSeparateMaps`: every
`{key}` replaced from the YAML map only. -/
def bracePass (vars : VarMap) (s : Str) : Str :=
  vars.foldl (fun acc e => replaceAll (bracePat e.1) e.2 acc) s

/-- `SubstituteVariablesWithSeparateMaps` (utils.go lines 196-241). -/
def substSeparate (fuel : Nat) (yamlVars dollarVars : VarMap) (s : Str) : SubstRes :=
  substDollarAll fuel dollarVars (bracePass yamlVars s)

/-- `SubstituteVariables` (utils.go lines 28-40): single map, plain
`ReplaceAll` for both the `{key}` and the `$key` spelling. -/
def substituteVariables (vars : VarMap) (s : Str) : Str :=
  vars.foldl (fun acc e => replaceAll ('$' :: e.1) e.2 (replaceAll (bracePat e.1) e.2 acc)) s

/-! ### Reference extraction and validation (utils.go) -/

/-- The `{...}` scan of `ExtractVariableReferences`: `start` is reset at
every `'{'`, and a name is emitted at a `'}'` seen while `start` is set. -/
def braceRefsAux : Option Str → Str → List Str
  | _, [] => []
  | acc, c :: rest =>
    if c = '\x7b' then braceRefsAux (some []) rest
    else if c = '\x7d' then
      match acc with
      | some name =>
        if name ≠ [] then name :: braceRefsAux none rest else braceRefsAux none rest
      | none => braceRefsAux none rest
    else
      match acc with
      | some name => braceRefsAux (some (name ++ [c])) rest
      | none => braceRefsAux none rest

def braceRefs (s : Str) : List Str := braceRefsAux none s

/-- The `$name` scan of `ExtractVariableReferences`: a `'$'` followed by a
letter or underscore starts a maximal letters/digits/underscore run.  The
accumulator holds the current run reversed; after a run ends the ending
character is re-examined (it may itself be a `'$'`). -/
def dollarRefsAux : Option Str → Str → List Str
  | some a, [] => [a.reverse]
  | none, [] => []
  | some a, c :: rest =>
    if isNameChar c then dollarRefsAux (some (c :: a)) rest
    else
      a.reverse ::
        (if c = '$' then
          match rest with
          | d :: _ => if isNameStart d then dollarRefsAux (some []) rest
                      else dollarRefsAux none rest
          | [] => []
        else dollarRefsAux none rest)
  | none, c :: rest =>
    if c = '$' then
      match rest with
      | d :: _ => if isNameStart d then dollarRefsAux (some []) rest
                  else dollarRefsAux none rest
      | [] => []
    else dollarRefsAux none rest

def dollarRefs (s : Str) : List Str := dollarRefsAux none s

/-- `ExtractVariableReferences` (utils.go lines 94-137), as the list of
extracted names (the Go code stores them in a set; only membership
matters to callers). -/
def extractVarRefs (s : Str) : List Str := braceRefs s ++ dollarRefs s

def dedupAux (seen : List Str) : List Str → List Str
  | [] => []
  | a :: rest => if a ∈ seen then dedupAux seen rest else a :: dedupAux (a :: seen) rest

def dedupL (l : List Str) : List Str := dedupAux [] l

/-- `ValidateVariables` (utils.go lines 141-165), as the list of missing
names (empty list = no error; Go enumerates the set in random order, here
first-occurrence order). -/
def validateVariables (args : List Str) (vars : VarMap) : List Str :=
  (dedupL (args.flatMap extractVarRefs)).filter (fun r => (lookupL r vars).isNone)

def joinSep (sep : Str) : List Str → Str
  | [] => []
  | [x] => x
  | x :: y :: rest => x ++ sep ++ joinSep sep (y :: rest)

/-- The error text of `ValidateVariables`. -/
def undefinedVarsMsg (missing : List Str) : Str :=
  str "undefined variables: " ++ joinSep (str ", ") missing ++
    str " (use -s or --set to provide values)"

/-! ### Path classification and normalization (utils.go) -/

def countChar (c : Char) (s : Str) : Nat := (s.filter (· = c)).length

def headIsLetter (s : Str) : Bool :=
  match s.head? with
  | some c => isLetterGo c
  | none => false

/-- `IsPathLike` (utils.go lines 43-90).  The fourth Go check is a block
that only returns on success and otherwise falls through, which the
flattened condition reproduces. -/
def isPathLike (s : Str) : Bool :=
  if s.length ≤ 3 ∧ (s.head? = some '/' ∨ s.head? = some '\\') then false
  else if 2 ≤ s.length ∧ s[1]? = some ':' ∧ headIsLetter s then true
  else if (str "./").isPrefixOf s ∨ (str "../").isPrefixOf s then true
  else if s.head? = some '/' ∧ 3 < s.length ∧
      (1 < countChar '/' s ∨ ('.' ∈ s ∨ 4 < s.length)) then true
  else if '\\' ∈ s then true
  else if '/' ∈ s ∧ '\\' ∈ s then true
  else if 1 < countChar '/' s + countChar '\\' s then true
  else false

/-- The separator rewrite of `NormalizePath`: `strings.ReplaceAll` with
single-character patterns is a character map. -/
def rewriteSep (isWin : Bool) (s : Str) : Str :=
  if isWin then s.map (fun c => if c = '/' then '\\' else c)
  else s.map (fun c => if c = '\\' then '/' else c)

/-- Windows volume-name split of a drive-letter prefix (`C:`), the only
volume form reachable here; on Unix there is no volume. -/
def splitVolume (isWin : Bool) (s : Str) : Str × Str :=
  if isWin then
    match s with
    | c :: ':' :: rest => if isLetterGo c then ([c, ':'], rest) else ([], s)
    | _ => ([], s)
  else ([], s)

def splitSep (sep : Char) : Str → List Str
  | [] => [[]]
  | c :: rest =>
    let r := splitSep sep rest
    if c = sep then [] :: r
    else match r with
      | h :: t => (c :: h) :: t
      | [] => [[c]]

def dotdotComp : Str := ['.', '.']

/-- The `..`-resolving stack of `filepath.Clean`: `..` pops a previous
component (unless that is itself `..`), is dropped at the root, and is
kept in relative paths. -/
def cleanComps (rooted : Bool) : List Str → List Str → List Str
  | acc, [] => acc.reverse
  | acc, c :: rest =>
    if c = dotdotComp then
      match acc with
      | a :: as =>
        if a = dotdotComp then cleanComps rooted (c :: acc) rest
        else cleanComps rooted as rest
      | [] =>
        if rooted then cleanComps rooted [] rest
        else cleanComps rooted [c] rest
    else cleanComps rooted (c :: acc) rest

/-- Models Go `path/filepath.Clean` (for paths without UNC volume
prefixes, the only ones reachable after `rewriteSep` in `NormalizePath`):
redundant separators and `.` components removed, `..` resolved, empty
result replaced by `"."`. -/
def cleanPath (isWin : Bool) (path : Str) : Str :=
  let sep : Char := if isWin then '\\' else '/'
  let vp := splitVolume isWin path
  let vol := vp.1
  let p := vp.2
  if p = [] then vol ++ ['.']
  else
    let rooted := p.head? = some sep
    let comps := (splitSep sep p).filter (fun c => c ≠ [] ∧ c ≠ ['.'])
    let cs := cleanComps rooted [] comps
    if cs = [] then
      if rooted then vol ++ [sep]
      else if vol ≠ [] then vol
      else ['.']
    else vol ++ (if rooted then [sep] else []) ++ joinSep [sep] cs

/-- `NormalizePath` (utils.go lines 16-25), parameterized by the host OS. -/
def normalizePath (isWin : Bool) (s : Str) : Str :=
  cleanPath isWin (rewriteSep isWin s)

/-! ### BuildCommand (executor.go lines 144-201) -/

structure CommandConfig where
  command : Str
  subcommand : Str
  args : List Str
  declVars : VarMap
deriving DecidableEq

inductive BuildResult where
  | err (msg : Str)
  | ok (cmd : List Str)
  | diverge
  | fuelOut
deriving DecidableEq

/-- `BuildCommand`: build the two scopes, validate every reference
appearing in the arguments and in the variable values against the union
scope, then substitute and path-normalize each argument. -/
def buildCommand (fuel : Nat) (isWin : Bool) (config : CommandConfig)
    (overrideVars : VarMap) : BuildResult :=
  let yamlVars := config.declVars
  let dollarVars := mergeMaps yamlVars overrideVars
  let allVars := mergeMaps yamlVars dollarVars
  let stringsToValidate := config.args ++ allVars.map (·.2)
  let missing := validateVariables stringsToValidate allVars
  if missing ≠ [] then .err (undefinedVarsMsg missing)
  else
    let base := config.command :: (if config.subcommand = [] then [] else [config.subcommand])
    config.args.foldl (fun acc a =>
      match acc with
      | .ok done =>
        match substSeparate fuel yamlVars dollarVars a with
        | .ok s => .ok (done ++ [if isPathLike s then normalizePath isWin s else s])
        | .diverge => .diverge
        | .fuelOut => .fuelOut
      | r => r) (.ok base)

/-! ### Block-terminator scans (lineash.go lines 898-951) -/

def kwIf : Str := str "if "
def kwFor : Str := str "for "
def kwWhile : Str := str "while "
def kwEnd : Str := str "end"
def kwFi : Str := str "fi"
def kwDone : Str := str "done"

/-- Loop body of `findMatchingEnd`: depth up on any `if `/`for `/`while `
line, down on `end` only. -/
def findEndAux (total : Nat) : List Str → Nat → Int → Nat
  | [], _, _ => total
  | l :: rest, i, depth =>
    let line := trimSpace l
    let d1 : Int :=
      if kwIf.isPrefixOf line ∨ kwFor.isPrefixOf line ∨ kwWhile.isPrefixOf line
      then depth + 1 else depth
    if line = kwEnd then
      if d1 - 1 = 0 then i else findEndAux total rest (i + 1) (d1 - 1)
    else findEndAux total rest (i + 1) d1

/-- `findMatchingEnd` (lineash.go lines 898-915). -/
def findMatchingEnd (lines : List Str) (startIndex : Nat) : Nat :=
  findEndAux lines.length (lines.drop (startIndex + 1)) (startIndex + 1) 1

/-- Loop body of `findMatchingEndOrFi`: depth up on `if ` lines only,
down on `end` or `fi`. -/
def findEndOrFiAux (total : Nat) : List Str → Nat → Int → Nat
  | [], _, _ => total
  | l :: rest, i, depth =>
    let line := trimSpace l
    let d1 : Int := if kwIf.isPrefixOf line then depth + 1 else depth
    if line = kwEnd ∨ line = kwFi then
      if d1 - 1 = 0 then i else findEndOrFiAux total rest (i + 1) (d1 - 1)
    else findEndOrFiAux total rest (i + 1) d1

/-- `findMatchingEndOrFi` (lineash.go lines 917-933). -/
def findMatchingEndOrFi (lines : List Str) (ifIndex : Nat) : Nat :=
  findEndOrFiAux lines.length (lines.drop (ifIndex + 1)) (ifIndex + 1) 1

/-- Loop body of `findMatchingEndOrDone`: depth up on `for `/`while `
lines only, down on `end` or `done`. -/
def findEndOrDoneAux (total : Nat) : List Str → Nat → Int → Nat
  | [], _, _ => total
  | l :: rest, i, depth =>
    let line := trimSpace l
    let d1 : Int :=
      if kwFor.isPrefixOf line ∨ kwWhile.isPrefixOf line then depth + 1 else depth
    if line = kwEnd ∨ line = kwDone then
      if d1 - 1 = 0 then i else findEndOrDoneAux total rest (i + 1) (d1 - 1)
    else findEndOrDoneAux total rest (i + 1) d1

/-- `findMatchingEndOrDone` (lineash.go lines 935-951). -/
def findMatchingEndOrDone (lines : List Str) (forIndex : Nat) : Nat :=
  findEndOrDoneAux lines.length (lines.drop (forIndex + 1)) (forIndex + 1) 1

/-- A generic depth scan over a line range: depth up on any line starting
with a keyword of `openers`, down on any line equal to a member of
`closers`, reporting the index at which depth reaches zero (the total
line count when it never does).  Used to state what each of the three
concrete scans does. -/
def scanDepth (openers closers : List Str) (total : Nat) :
    List Str → Nat → Int → Nat
  | [], _, _ => total
  | l :: rest, i, depth =>
    let line := trimSpace l
    let d1 : Int := if openers.any (fun o => o.isPrefixOf line) then depth + 1 else depth
    if closers.any (fun cl => line = cl) then
      if d1 - 1 = 0 then i else scanDepth openers closers total rest (i + 1) (d1 - 1)
    else scanDepth openers closers total rest (i + 1) d1

/-- The scan described by the specification: depth up on any opener kind,
down on any of the three terminators. -/
def claimedScan (lines : List Str) (startIndex : Nat) : Nat :=
  scanDepth [kwIf, kwFor, kwWhile] [kwEnd, kwFi, kwDone] lines.length
    (lines.drop (startIndex + 1)) (startIndex + 1) 1

/-! ### Assignment recognition and line dispatch (lineash.go) -/

/-- `parseVariableAssignment` (lineash.go lines 519-543): requires an
`=`, rejects lines containing the override-flag tokens, requires a
nonempty space-free segment before the first `=`; the value is
space-trimmed and then quote-trimmed. -/
def parseVariableAssignment (line : Str) : Option (Str × Str) :=
  let l := trimSpace line
  if ¬ occursB ['='] l then none
  else if occursB (str "-s") l ∨ occursB (str "--set") l ∨ occursB (str "--args") l then none
  else
    match findFirst ['='] l with
    | some eqIndex =>
      if 0 < eqIndex ∧ ¬ (' ' ∈ l.take eqIndex) then
        some (trimSpace (l.take eqIndex),
              trimChars ['"', '\''] (trimSpace (l.drop (eqIndex + 1))))
      else none
    | none => none

inductive LineAction where
  | skip
  | assigned (vars : VarMap)
  | ifBlock
  | forBlock
  | whileBlock
  | command (line : Str)
deriving DecidableEq

/-- The per-line dispatch of `ExecuteLines` (lineash.go lines 442-512):
skip blanks and `#` lines (which includes the shebang), then try the
assignment parse (binding the substituted value), then the three block
openers, otherwise substitute the line and dispatch it as a command.
`substF` stands for `ctx.SubstituteVariables`, which `ExecuteLines`
invokes as a black box at this level. -/
def execLineStep (substF : Str → Str) (vars : VarMap) (rawLine : Str) : LineAction :=
  let line := trimSpace rawLine
  if line = [] ∨ line.head? = some '#' then .skip
  else
    match parseVariableAssignment line with
    | some kv => .assigned (insertL kv.1 (substF kv.2) vars)
    | none =>
      if kwIf.isPrefixOf line then .ifBlock
      else if kwFor.isPrefixOf line then .forBlock
      else if kwWhile.isPrefixOf line then .whileBlock
      else .command (substF line)

/-! ### Condition evaluation (lineash.go lines 790-896) -/

/-- Lexicographic byte comparison, Go `string <`. -/
def strLtB : Str → Str → Bool
  | [], [] => false
  | [], _ :: _ => true
  | _ :: _, [] => false
  | a :: as, b :: bs =>
    if a.toNat < b.toNat then true
    else if b.toNat < a.toNat then false
    else strLtB as bs

def strLeB (a b : Str) : Bool := strLtB a b || a == b

/-- The shared body of the four relational operator closures: numeric
comparison when both trimmed sides parse as integers, Go string
comparison otherwise. -/
def numCmp (f : Int → Int → Bool) (g : Str → Str → Bool) (l r : Str) : Bool :=
  match atoi (trimSpace l), atoi (trimSpace r) with
  | some a, some b => f a b
  | _, _ => g (trimSpace l) (trimSpace r)

/-- The operator table of `evaluateCondition`, in the fixed priority
order of the Go slice.  `==`, `!=` and `=` compare strings directly. -/
def condOpTable : List (Str × (Str → Str → Bool)) :=
  [ (str "<=", numCmp (· ≤ ·) strLeB),
    (str ">=", numCmp (· ≥ ·) (fun a b => strLeB b a)),
    (str "==", fun l r => trimSpace l == trimSpace r),
    (str "!=", fun l r => trimSpace l != trimSpace r),
    (str "<", numCmp (· < ·) strLtB),
    (str ">", numCmp (· > ·) (fun a b => strLtB b a)),
    (str "=", fun l r => trimSpace l == trimSpace r) ]

/-- `for _, opInfo := range operators { if idx := strings.Index(...); idx > 0 }`:
first operator of the table occurring at a positive offset wins. -/
def pickOpAux : List (Str × (Str → Str → Bool)) → Str →
    Option (Str × (Str → Str → Bool) × Nat)
  | [], _ => none
  | (op, f) :: rest, cond =>
    match findFirst op cond with
    | some idx => if 0 < idx then some (op, f, idx) else pickOpAux rest cond
    | none => pickOpAux rest cond

def pickOp (cond : Str) : Option (Str × (Str → Str → Bool) × Nat) :=
  pickOpAux condOpTable cond

/-- Operand post-processing inside `evaluateCondition`: a still
sigil-prefixed operand is resolved against scope (undefined → empty). -/
def resolveOperand (vars : VarMap) (x : Str) : Str :=
  if x.head? = some '$' then
    let varName := trimChars ['\x7b', '\x7d'] (x.drop 1)
    match lookupL varName vars with
    | some v => v
    | none => []
  else x

/-- `evaluateCondition` (lineash.go lines 790-896). -/
def evaluateCondition (vars : VarMap) (condition : Str) : Bool :=
  let cond := trimSpace condition
  match pickOp cond with
  | some (op, f, idx) =>
    let left := resolveOperand vars (trimChars ['"', '\''] (trimSpace (cond.take idx)))
    let right := resolveOperand vars
      (trimChars ['"', '\''] (trimSpace (cond.drop (idx + op.length))))
    f left right
  | none =>
    if (str "-n ").isPrefixOf cond then
      let varName := trimChars ['\x7b', '\x7d']
        (trimChars ['"', '\'', '$'] (trimSpace (cond.drop 2)))
      ! ((lookupL varName vars).getD []).isEmpty
    else if cond.head? = some '$' then
      let varName := trimChars ['\x7b', '\x7d'] (trimChars ['$', '"', '\''] cond)
      ! ((lookupL varName vars).getD []).isEmpty
    else false

/-! ### Specification-side definitions used in theorem statements -/

/-- The operator tokens of the arithmetic evaluator. -/
def opStrings : List Str := [str "+", str "-", str "*", str "/", str "%"]

/-- Render an `operator number` pair list as the evaluator's token list. -/
def flattenPairs (prs : List (Str × Str)) : List Str :=
  prs.flatMap (fun p => [p.1, p.2])

/-- Strict left-to-right folding of `operator number` pairs, the behaviour
the specification ascribes to the arithmetic evaluator. -/
def foldArith (n0 : Int) (prs : List (Str × Str)) : Int :=
  prs.foldl (fun r p => arithStep r p.1 ((atoi p.2).getD 0)) n0

/-- A value free of all reference syntax characters. -/
abbrev cleanVal (s : Str) : Prop := '$' ∉ s ∧ '\x7b' ∉ s ∧ '\x7d' ∉ s

/-- A plausible variable name: nonempty, letters/digits/underscore. -/
abbrev isNameStr (s : Str) : Prop := s ≠ [] ∧ ∀ c ∈ s, isNameChar c = true

/-- Lookup in the overridable scope as specified: the override map wins,
otherwise the declared map. -/
def mergedLookup (base over : VarMap) (k : Str) : Option Str :=
  match lookupL k over with
  | some v => some v
  | none => lookupL k base

/-- A condition operand that interacts with none of the machinery of
`evaluateCondition`: free of comparison-operator characters, quotes and
whitespace (a leading `$` for scope resolution is allowed). -/
abbrev condOperandOk (s : Str) : Prop :=
  ∀ c ∈ s, c ∉ (['<', '>', '=', '!', '"', '\''] : List Char) ∧ isSpaceGo c = false

/-- No two entries of the map share a key (true of every Go map). -/
abbrev distinctKeys (m : VarMap) : Prop := m.Pairwise (fun a b => a.1 ≠ b.1)

/-- The union scope `allVars` constructed inside `BuildCommand`. -/
def buildAllVars (cfg : CommandConfig) (ov : VarMap) : VarMap :=
  mergeMaps cfg.declVars (mergeMaps cfg.declVars ov)

/-- The strings `BuildCommand` validates: the arguments plus every value
of the union scope. -/
def buildValidated (cfg : CommandConfig) (ov : VarMap) : List Str :=
  cfg.args ++ (buildAllVars cfg ov).map (·.2)

/-- The missing-name list `BuildCommand`'s validation computes. -/
def buildMissing (cfg : CommandConfig) (ov : VarMap) : List Str :=
  validateVariables (buildValidated cfg ov) (buildAllVars cfg ov)

/-! ## Supporting lemmas -/

theorem occursB_eq_true_iff {pat s : Str} : occursB pat s = true ↔ pat <:+: s := by
  induction s with
  | nil => simp [occursB, List.isPrefixOf_iff_prefix]
  | cons c rest ih =>
    simp only [occursB, Bool.or_eq_true, List.isPrefixOf_iff_prefix, ih]
    constructor
    · rintro (h | h)
      · exact h.isInfix
      · exact h.trans (List.suffix_cons c rest).isInfix
    · intro h
      rcases h with ⟨t1, t2, ht⟩
      cases t1 with
      | nil => exact Or.inl ⟨t2, by simpa using ht⟩
      | cons a t1 =>
        have hcons : a :: (t1 ++ pat ++ t2) = c :: rest := by simpa using ht
        have h2 : t1 ++ pat ++ t2 = rest := by
          injection hcons
        exact Or.inr ⟨t1, t2, h2⟩

theorem occursB_false_of_not_mem {pat s : Str} {c : Char}
    (hc : c ∈ pat) (hs : c ∉ s) : occursB pat s = false := by
  rw [Bool.eq_false_iff]
  intro h
  exact hs ((occursB_eq_true_iff.mp h).subset hc)

theorem isPrefixOf_false_of_occursB_false {pat s : Str}
    (h : occursB pat s = false) : pat.isPrefixOf s = false := by
  cases s with
  | nil => simpa [occursB] using h
  | cons c rest =>
    simp only [occursB, Bool.or_eq_false_iff] at h
    exact h.1

theorem occursB_tail_false {pat : Str} {c : Char} {s : Str}
    (h : occursB pat (c :: s) = false) : occursB pat s = false := by
  simp only [occursB, Bool.or_eq_false_iff] at h
  exact h.2

/-- With no occurrence of the pattern the scan copies the string, for any
amount of fuel (running out of fuel also returns the string unchanged). -/
theorem replaceAllAux_of_no_occurs {p0 : Char} {ptail rep : Str} :
    ∀ (fuel : Nat) (s : Str), occursB (p0 :: ptail) s = false →
      replaceAllAux p0 ptail rep fuel s = s := by
  intro fuel
  induction fuel with
  | zero => intro s _; cases s <;> rfl
  | succ fuel ih =>
    intro s hs
    cases s with
    | nil => rfl
    | cons c rest =>
      have h1 := isPrefixOf_false_of_occursB_false hs
      simp only [replaceAllAux, h1, Bool.false_eq_true, if_false]
      exact congrArg (c :: ·) (ih rest (occursB_tail_false hs))

theorem replaceAll_of_no_occurs {pat rep s : Str}
    (h : occursB pat s = false) : replaceAll pat rep s = s := by
  cases pat with
  | nil => rfl
  | cons p0 ptail => exact replaceAllAux_of_no_occurs _ s h

/-- A string that is exactly the pattern followed by occurrence-free text
is rewritten in one step. -/
theorem replaceAll_append_of_no_occurs {p q t : Str} (hne : p ≠ [])
    (h : occursB p t = false) : replaceAll p q (p ++ t) = q ++ t := by
  cases p with
  | nil => exact absurd rfl hne
  | cons p0 ptail =>
    have hpre : (p0 :: ptail).isPrefixOf (p0 :: (ptail ++ t)) = true := by
      rw [List.isPrefixOf_iff_prefix]
      exact ⟨t, by simp⟩
    show replaceAllAux p0 ptail q ((p0 :: ptail) ++ t).length ((p0 :: ptail) ++ t) = q ++ t
    have hlen : ((p0 :: ptail) ++ t).length = (ptail ++ t).length + 1 := by simp
    rw [hlen]
    show replaceAllAux p0 ptail q ((ptail ++ t).length + 1) (p0 :: (ptail ++ t)) = q ++ t
    simp only [replaceAllAux, hpre, if_true, List.drop_left]
    rw [replaceAllAux_of_no_occurs _ t h]

/-- Skipping a head character that starts no occurrence. -/
theorem replaceAll_cons_skip {pat rep : Str} {c : Char} {s : Str}
    (hne : pat ≠ []) (h : pat.isPrefixOf (c :: s) = false) :
    replaceAll pat rep (c :: s) = c :: replaceAll pat rep s := by
  cases pat with
  | nil => exact absurd rfl hne
  | cons p0 ptail =>
    show replaceAllAux p0 ptail rep (c :: s).length (c :: s) = _
    simp only [List.length_cons, replaceAllAux, h, Bool.false_eq_true, if_false]
    rfl

theorem findFirst_eq_none_iff {pat s : Str} :
    findFirst pat s = none ↔ occursB pat s = false := by
  induction s with
  | nil =>
    by_cases hp : pat.isPrefixOf [] = true
    · simp [findFirst, occursB, hp]
    · have hp' : pat.isPrefixOf [] = false := Bool.eq_false_iff.mpr hp
      simp [findFirst, occursB, hp']
  | cons c rest ih =>
    by_cases hp : pat.isPrefixOf (c :: rest) = true
    · simp [findFirst, occursB, hp]
    · have hp' : pat.isPrefixOf (c :: rest) = false := Bool.eq_false_iff.mpr hp
      simp [findFirst, occursB, hp', ih]

theorem findFirst_self {pat : Str} (h : pat ≠ []) : findFirst pat pat = some 0 := by
  cases pat with
  | nil => exact absurd rfl h
  | cons p0 ptail =>
    have : (p0 :: ptail).isPrefixOf (p0 :: ptail) = true := by
      rw [List.isPrefixOf_iff_prefix]
    simp [findFirst, this]

theorem dropWhile_eq_self_of_head {p : Char → Bool} {s : Str}
    (h : ∀ c ∈ s, p c = false) : s.dropWhile p = s := by
  cases s with
  | nil => rfl
  | cons c rest => simp [List.dropWhile_cons, h c (by simp)]

theorem trimSpace_eq_self {s : Str} (h : ∀ c ∈ s, isSpaceGo c = false) :
    trimSpace s = s := by
  unfold trimSpace
  rw [dropWhile_eq_self_of_head h,
      dropWhile_eq_self_of_head (fun c hc => h c (List.mem_reverse.mp hc)),
      List.reverse_reverse]

theorem trimChars_eq_self {cutset : List Char} {s : Str}
    (h : ∀ c ∈ s, c ∉ cutset) : trimChars cutset s = s := by
  unfold trimChars
  rw [dropWhile_eq_self_of_head (fun c hc => decide_eq_false (h c hc))]
  rw [dropWhile_eq_self_of_head
    (fun c hc => decide_eq_false (h c (List.mem_reverse.mp hc)))]
  exact List.reverse_reverse s

theorem isOpChar_false_of_digit {c : Char} (h : isDigitGo c = true) :
    isOpChar c = false := by
  simp only [isDigitGo, Bool.decide_and, Bool.and_eq_true, decide_eq_true_eq] at h
  simp only [isOpChar, Bool.decide_or, Bool.or_eq_false_iff, decide_eq_false_iff_not]
  obtain ⟨h0, h9⟩ := h
  refine ⟨?_, ?_, ?_, ?_, ?_⟩ <;> rintro rfl <;> revert h0 h9 <;> decide

theorem isSpaceGo_false_of_digit {c : Char} (h : isDigitGo c = true) :
    isSpaceGo c = false := by
  simp only [isDigitGo, Bool.decide_and, Bool.and_eq_true, decide_eq_true_eq] at h
  simp only [isSpaceGo, Bool.decide_or, Bool.or_eq_false_iff, decide_eq_false_iff_not]
  obtain ⟨h0, h9⟩ := h
  refine ⟨?_, ?_, ?_, ?_, ?_, ?_⟩ <;> rintro rfl <;> revert h0 h9 <;> decide

theorem splitArithAux_no_op : ∀ (s current : Str),
    (∀ c ∈ s, isOpChar c = false) →
    splitArithAux current s =
      if current ++ s = [] then [] else [trimSpace (current ++ s)] := by
  intro s
  induction s with
  | nil => intro current _; simp [splitArithAux]
  | cons c rest ih =>
    intro current h
    have hc : isOpChar c = false := h c (by simp)
    simp only [splitArithAux, hc, Bool.false_eq_true, if_false]
    rw [ih (current ++ [c]) (fun d hd => h d (by simp [hd]))]
    simp

theorem splitArith_all_digits {s : Str} (hne : s ≠ [])
    (h : ∀ c ∈ s, isDigitGo c = true) : splitArith s = [s] := by
  unfold splitArith
  rw [splitArithAux_no_op s [] (fun c hc => isOpChar_false_of_digit (h c hc))]
  simp only [List.nil_append, if_neg hne]
  rw [trimSpace_eq_self (fun c hc => isSpaceGo_false_of_digit (h c hc))]

theorem digitsToNat?_some {s : Str} {m : Nat} (h : digitsToNat? s = some m) :
    s ≠ [] ∧ ∀ c ∈ s, isDigitGo c = true := by
  unfold digitsToNat? at h
  split at h
  · rename_i hcond
    exact ⟨hcond.1, fun c hc => by
      have := hcond.2
      rw [List.all_eq_true] at this
      exact this c hc⟩
  · simp at h

theorem atoi_shape {s : Str} {v : Int} (h : atoi s = some v) :
    (s ≠ [] ∧ ∀ c ∈ s, isDigitGo c = true) ∨
    (∃ c t, s = c :: t ∧ (c = '+' ∨ c = '-') ∧ t ≠ [] ∧ ∀ d ∈ t, isDigitGo d = true) := by
  unfold atoi at h
  rcases s with _ | ⟨c, t⟩
  · simp [digitsToNat?] at h
  · by_cases hsign : c = '+' ∨ c = '-'
    · right
      have hcond : ((c :: t : Str).head? = some '+' ∨ (c :: t : Str).head? = some '-') := by
        rcases hsign with h1 | h1 <;> subst h1 <;> simp
      rw [if_pos hcond] at h
      simp only [List.drop_succ_cons, List.drop_zero] at h
      match hm : digitsToNat? t with
      | none => rw [hm] at h; simp at h
      | some m =>
        rw [hm] at h
        obtain ⟨hne, hall⟩ := digitsToNat?_some hm
        exact ⟨c, t, rfl, hsign, hne, hall⟩
    · left
      have hcond : ¬ ((c :: t : Str).head? = some '+' ∨ (c :: t : Str).head? = some '-') := by
        simp only [List.head?_cons, Option.some.injEq]
        push_neg
        exact ⟨fun h1 => hsign (Or.inl h1), fun h1 => hsign (Or.inr h1)⟩
      rw [if_neg hcond] at h
      match hm : digitsToNat? (c :: t) with
      | none => rw [hm] at h; simp at h
      | some m =>
        obtain ⟨hne, hall⟩ := digitsToNat?_some hm
        exact ⟨hne, hall⟩

theorem applyOps_flatten {prs : List (Str × Str)} :
    ∀ r : Int, (∀ p ∈ prs, (atoi p.2).isSome) →
      applyOps r (flattenPairs prs) = foldArith r prs := by
  induction prs with
  | nil => intro r _; rfl
  | cons p rest ih =>
    intro r h
    obtain ⟨v, hv⟩ := Option.isSome_iff_exists.mp (h p (by simp))
    show applyOps r (p.1 :: p.2 :: flattenPairs rest) = _
    simp only [applyOps, hv]
    rw [ih _ (fun q hq => h q (by simp [hq]))]
    simp [foldArith, hv]

theorem splitArith_sign_digits {c : Char} {t : Str} (hc : isOpChar c = true)
    (hne : t ≠ []) (hdig : ∀ d ∈ t, isDigitGo d = true) :
    splitArith (c :: t) = [[c], t] := by
  show splitArithAux [] (c :: t) = _
  simp only [splitArithAux, hc, if_true, if_pos rfl, List.nil_append]
  rw [splitArithAux_no_op t []
    (fun d hd => isOpChar_false_of_digit (hdig d hd))]
  simp only [List.nil_append, if_neg hne]
  rw [trimSpace_eq_self (fun d hd => isSpaceGo_false_of_digit (hdig d hd))]

/-! ## Claim theorems -/

/-- C6: a division or modulo step whose right operand is zero leaves the
running result unchanged (no error is possible: `evaluateArithmetic` is
total), and `$((10/0))` evaluates to `10`. -/
theorem c6_division_modulo_by_zero_noop :
    (∀ r : Int, arithStep r (str "/") 0 = r ∧ arithStep r (str "%") 0 = r) ∧
    evaluateArithmetic (str "10/0") = str "10" :=
  ⟨fun _ => ⟨rfl, rfl⟩, by decide⟩

theorem findEndAux_no_term :
    ∀ (rest : List Str) (i : Nat) (d : Int) (total : Nat),
      (∀ l ∈ rest, trimSpace l ≠ kwEnd) → findEndAux total rest i d = total := by
  intro rest
  induction rest with
  | nil => intros; rfl
  | cons l rs ih =>
    intro i d total h
    simp only [findEndAux]
    rw [if_neg (h l (by simp))]
    exact ih _ _ _ (fun x hx => h x (by simp [hx]))

theorem findEndOrFiAux_no_term :
    ∀ (rest : List Str) (i : Nat) (d : Int) (total : Nat),
      (∀ l ∈ rest, trimSpace l ≠ kwEnd ∧ trimSpace l ≠ kwFi) →
      findEndOrFiAux total rest i d = total := by
  intro rest
  induction rest with
  | nil => intros; rfl
  | cons l rs ih =>
    intro i d total h
    simp only [findEndOrFiAux]
    rw [if_neg (by
      rintro (hc | hc)
      · exact (h l (by simp)).1 hc
      · exact (h l (by simp)).2 hc)]
    exact ih _ _ _ (fun x hx => h x (by simp [hx]))

theorem findEndOrDoneAux_no_term :
    ∀ (rest : List Str) (i : Nat) (d : Int) (total : Nat),
      (∀ l ∈ rest, trimSpace l ≠ kwEnd ∧ trimSpace l ≠ kwDone) →
      findEndOrDoneAux total rest i d = total := by
  intro rest
  induction rest with
  | nil => intros; rfl
  | cons l rs ih =>
    intro i d total h
    simp only [findEndOrDoneAux]
    rw [if_neg (by
      rintro (hc | hc)
      · exact (h l (by simp)).1 hc
      · exact (h l (by simp)).2 hc)]
    exact ih _ _ _ (fun x hx => h x (by simp [hx]))

/-- C10: when no terminator line (`end`/`fi`/`done`) occurs after a block
opener, each of the three matching scans returns the total number of
lines, so the block silently extends to the end of the script and no
error is reported. -/
theorem c10_unterminated_block_scans_to_end :
    ∀ (lines : List Str) (startIndex : Nat),
      (∀ l ∈ lines.drop (startIndex + 1),
        trimSpace l ≠ kwEnd ∧ trimSpace l ≠ kwFi ∧ trimSpace l ≠ kwDone) →
      findMatchingEnd lines startIndex = lines.length ∧
      findMatchingEndOrFi lines startIndex = lines.length ∧
      findMatchingEndOrDone lines startIndex = lines.length := by
  intro lines startIndex h
  refine ⟨?_, ?_, ?_⟩
  · exact findEndAux_no_term _ _ _ _ (fun l hl => (h l hl).1)
  · exact findEndOrFiAux_no_term _ _ _ _ (fun l hl => ⟨(h l hl).1, (h l hl).2.1⟩)
  · exact findEndOrDoneAux_no_term _ _ _ _ (fun l hl => ⟨(h l hl).1, (h l hl).2.2⟩)

theorem c10_witness :
    findMatchingEnd [str "while x == x", str "echo hi"] 0 = 2 ∧
    findMatchingEndOrFi [str "while x == x", str "echo hi"] 0 = 2 ∧
    findMatchingEndOrDone [str "while x == x", str "echo hi"] 0 = 2 :=
  c10_unterminated_block_scans_to_end [str "while x == x", str "echo hi"] 0
    (by decide)

/-- C3 counterexample: the claim says the scan for an `if` block
increments depth on any nested opener (so also on `for`), but
`findMatchingEndOrFi` increments only on `if ` lines: with a nested
`for … end` block it stops at the `for` block's `end` (index 2) instead
of the outer terminator (index 3) that the all-opener scan finds. -/
theorem c3_counterexample :
    findMatchingEndOrFi
      [str "if a == a", str "for x in 1", str "end", str "end"] 0 = 2 ∧
    claimedScan
      [str "if a == a", str "for x in 1", str "end", str "end"] 0 = 3 ∧
    (2 : Nat) ≠ 3 := by
  refine ⟨by decide, by decide, by decide⟩

theorem findEndOrFiAux_eq_scan :
    ∀ (rest : List Str) (i : Nat) (d : Int) (total : Nat),
      findEndOrFiAux total rest i d =
        scanDepth [kwIf] [kwEnd, kwFi] total rest i d := by
  intro rest
  induction rest with
  | nil => intros; rfl
  | cons l rs ih =>
    intro i d total
    simp only [findEndOrFiAux, scanDepth, List.any_cons, List.any_nil,
      Bool.or_false, Bool.or_eq_true, decide_eq_true_eq]
    by_cases hcl : trimSpace l = kwEnd ∨ trimSpace l = kwFi
    · rw [if_pos hcl, if_pos hcl]
      by_cases hz :
          (if kwIf.isPrefixOf (trimSpace l) = true then d + 1 else d) - 1 = 0
      · rw [if_pos hz, if_pos hz]
      · rw [if_neg hz, if_neg hz, ih]
    · rw [if_neg hcl, if_neg hcl, ih]

theorem findEndOrDoneAux_eq_scan :
    ∀ (rest : List Str) (i : Nat) (d : Int) (total : Nat),
      findEndOrDoneAux total rest i d =
        scanDepth [kwFor, kwWhile] [kwEnd, kwDone] total rest i d := by
  intro rest
  induction rest with
  | nil => intros; rfl
  | cons l rs ih =>
    intro i d total
    simp only [findEndOrDoneAux, scanDepth, List.any_cons, List.any_nil,
      Bool.or_false, Bool.or_eq_true, decide_eq_true_eq]
    by_cases hcl : trimSpace l = kwEnd ∨ trimSpace l = kwDone
    · rw [if_pos hcl, if_pos hcl]
      by_cases hz :
          (if (kwFor.isPrefixOf (trimSpace l) = true ∨
               kwWhile.isPrefixOf (trimSpace l) = true)
           then d + 1 else d) - 1 = 0
      · rw [if_pos hz, if_pos hz]
      · rw [if_neg hz, if_neg hz, ih]
    · rw [if_neg hcl, if_neg hcl, ih]

theorem findEndAux_eq_scan :
    ∀ (rest : List Str) (i : Nat) (d : Int) (total : Nat),
      findEndAux total rest i d =
        scanDepth [kwIf, kwFor, kwWhile] [kwEnd] total rest i d := by
  intro rest
  induction rest with
  | nil => intros; rfl
  | cons l rs ih =>
    intro i d total
    simp only [findEndAux, scanDepth, List.any_cons, List.any_nil,
      Bool.or_false, Bool.or_eq_true, decide_eq_true_eq]
    by_cases hcl : trimSpace l = kwEnd
    · rw [if_pos hcl, if_pos hcl]
      by_cases hz :
          (if (kwIf.isPrefixOf (trimSpace l) = true ∨
               kwFor.isPrefixOf (trimSpace l) = true ∨
               kwWhile.isPrefixOf (trimSpace l) = true)
           then d + 1 else d) - 1 = 0
      · rw [if_pos hz, if_pos hz]
      · rw [if_neg hz, if_neg hz, ih]
    · rw [if_neg hcl, if_neg hcl, ih]

/-- C3 amended: each scan keeps a depth counter but over its own keyword
sets: the `if`-block scan increments only on nested `if ` lines and
decrements on `end`/`fi`; the `for`-block scan increments only on
`for `/`while ` lines and decrements on `end`/`done`; the `while`-block
scan increments on any of the three openers and decrements only on
`end`; each returns the index of the line at which depth reaches zero. -/
theorem c3_amended_per_kind_scans :
    ∀ (lines : List Str) (startIndex : Nat),
      findMatchingEndOrFi lines startIndex =
        scanDepth [kwIf] [kwEnd, kwFi] lines.length
          (lines.drop (startIndex + 1)) (startIndex + 1) 1 ∧
      findMatchingEndOrDone lines startIndex =
        scanDepth [kwFor, kwWhile] [kwEnd, kwDone] lines.length
          (lines.drop (startIndex + 1)) (startIndex + 1) 1 ∧
      findMatchingEnd lines startIndex =
        scanDepth [kwIf, kwFor, kwWhile] [kwEnd] lines.length
          (lines.drop (startIndex + 1)) (startIndex + 1) 1 := by
  intro lines startIndex
  exact ⟨findEndOrFiAux_eq_scan _ _ _ _, findEndOrDoneAux_eq_scan _ _ _ _,
    findEndAux_eq_scan _ _ _ _⟩

/-- C4 counterexample: the claim's unconditional clause "if the first
token does not parse as an integer the result is 0" fails on `-5`: its
token list starts with the unparseable token `-`, yet the evaluator's
whole-expression parse succeeds first and returns `-5`, not `0`. -/
theorem c4_counterexample :
    splitArith (str "-5") = [str "-", str "5"] ∧
    atoi (str "-") = none ∧
    evaluateArithmetic (str "-5") = str "-5" ∧
    evaluateArithmetic (str "-5") ≠ str "0" := by
  refine ⟨by decide, by decide, by decide, by decide⟩

/-- C4 amended: when the token split of the (trimmed) expression is an
integer token followed by `operator integer` pairs, evaluation is the
strict left-to-right fold of those pairs with no precedence (so
`$((2+3*4))` is `20`); and the result is `0` whenever neither the whole
trimmed expression nor the first token parses as an integer. -/
theorem c4_left_to_right_no_precedence :
    (∀ (expr t0 : Str) (prs : List (Str × Str)) (n0 : Int),
      splitArith (trimSpace expr) = t0 :: flattenPairs prs →
      atoi t0 = some n0 →
      (∀ p ∈ prs, p.1 ∈ opStrings ∧ (atoi p.2).isSome) →
      evaluateArithmetic expr = intToStr (foldArith n0 prs)) ∧
    (∀ (expr t0 : Str) (rest : List Str),
      splitArith (trimSpace expr) = t0 :: rest →
      atoi (trimSpace expr) = none →
      atoi t0 = none →
      evaluateArithmetic expr = str "0") ∧
    evaluateArithmetic (str "2+3*4") = str "20" := by
  refine ⟨?_, ?_, by decide⟩
  · intro expr t0 prs n0 hsplit ht0 hprs
    simp only [evaluateArithmetic]
    cases hw : atoi (trimSpace expr) with
    | some v =>
      rcases atoi_shape hw with ⟨hne, hdig⟩ | ⟨c, t, hs, hsign, htne, htdig⟩
      · -- the whole expression is a single all-digit token: empty fold
        have hone : splitArith (trimSpace expr) = [trimSpace expr] :=
          splitArith_all_digits hne hdig
        rw [hone] at hsplit
        injection hsplit with h1 h2
        have hprsnil : prs = [] := by
          cases prs with
          | nil => rfl
          | cons p ps => simp [flattenPairs] at h2
        subst hprsnil
        rw [← h1, hw] at ht0
        injection ht0 with hv
        rw [← hv]
        rfl
      · -- sign-headed parse: the token list starts with a lone sign
        -- token, contradicting the parseable first token
        have hsplit2 : splitArith (trimSpace expr) = [[c], t] := by
          rw [hs]
          exact splitArith_sign_digits
            (by rcases hsign with h | h <;> subst h <;> decide) htne htdig
        rw [hsplit2] at hsplit
        injection hsplit with h1 h2
        rw [← h1] at ht0
        rcases hsign with h | h <;> subst h
        · rw [show atoi ['+'] = none from by decide] at ht0
          exact absurd ht0 (by simp)
        · rw [show atoi ['-'] = none from by decide] at ht0
          exact absurd ht0 (by simp)
    | none =>
      rw [hsplit]
      simp only [ht0]
      rw [applyOps_flatten n0 (fun p hp => (hprs p hp).2)]
  · intro expr t0 rest hsplit hwhole ht0
    simp only [evaluateArithmetic]
    rw [hwhole, hsplit]
    simp only [ht0]

/-- C9: argument strings of length at most 3 starting with a separator
are never path-like; `./`- and `../`-prefixed strings always are,
independent of the OS (`isPathLike` takes no OS input); drive-letter
strings are path-like, and `C:/Users/x` is rewritten to the native
separator and lexically cleaned on each OS. -/
theorem c9_path_classification :
    (∀ s : Str, s.length ≤ 3 → (s.head? = some '/' ∨ s.head? = some '\\') →
      isPathLike s = false) ∧
    (∀ s : Str, ((str "./").isPrefixOf s = true ∨ (str "../").isPrefixOf s = true) →
      isPathLike s = true) ∧
    (∀ (c : Char) (rest : Str), isLetterGo c = true →
      isPathLike (c :: ':' :: rest) = true) ∧
    (isPathLike (str "C:/Users/x") = true ∧
      normalizePath true (str "C:/Users/x") = str "C:\\Users\\x" ∧
      normalizePath false (str "C:/Users/x") = str "C:/Users/x") := by
  refine ⟨?_, ?_, ?_, by decide, by decide, by decide⟩
  · intro s h1 h2
    unfold isPathLike
    rw [if_pos ⟨h1, h2⟩]
  · intro s h
    rcases h with h | h
    · rw [List.isPrefixOf_iff_prefix] at h
      obtain ⟨t, ht⟩ := h
      subst ht
      unfold isPathLike
      rw [if_neg (by rintro ⟨-, h | h⟩ <;> simp [str] at h)]
      rw [if_neg (by rintro ⟨-, h, -⟩; simp [str] at h)]
      rw [if_pos (Or.inl (by rw [List.isPrefixOf_iff_prefix]; exact ⟨t, rfl⟩))]
    · rw [List.isPrefixOf_iff_prefix] at h
      obtain ⟨t, ht⟩ := h
      subst ht
      unfold isPathLike
      rw [if_neg (by rintro ⟨-, h | h⟩ <;> simp [str] at h)]
      rw [if_neg (by rintro ⟨-, h, -⟩; simp [str] at h)]
      rw [if_pos (Or.inr (by rw [List.isPrefixOf_iff_prefix]; exact ⟨t, rfl⟩))]
  · intro c rest hc
    unfold isPathLike
    rw [if_neg (by
      rintro ⟨-, h | h⟩ <;>
      · simp only [List.head?_cons, Option.some.injEq] at h
        subst h
        simp [isLetterGo] at hc)]
    rw [if_pos ⟨by simp, by simp, by simpa [headIsLetter] using hc⟩]

theorem c9_witness :
    isPathLike (str "/?") = false ∧
    isPathLike (str "./a/b") = true ∧
    isPathLike ('d' :: ':' :: str "x") = true :=
  ⟨c9_path_classification.1 (str "/?") (by decide) (by decide),
    c9_path_classification.2.1 (str "./a/b") (by decide),
    c9_path_classification.2.2.1 'd' (str "x") (by decide)⟩

theorem substituteVariables_cons (e : Str × Str) (rest : VarMap) (s : Str) :
    substituteVariables (e :: rest) s =
      substituteVariables rest (replaceAll ('$' :: e.1) e.2 (replaceAll (bracePat e.1) e.2 s)) :=
  rfl

theorem substituteVariables_fixed :
    ∀ (vars : VarMap) (s : Str),
      (∀ e ∈ vars, occursB (bracePat e.1) s = false ∧ occursB ('$' :: e.1) s = false) →
      substituteVariables vars s = s := by
  intro vars
  induction vars with
  | nil => intro s _; rfl
  | cons e rest ih =>
    intro s h
    rw [substituteVariables_cons]
    rw [replaceAll_of_no_occurs (h e (by simp)).1,
        replaceAll_of_no_occurs (h e (by simp)).2]
    exact ih s (fun e2 he2 => h e2 (by simp [he2]))

/-- C7: substitution is idempotent whenever the substituted text contains
no remaining or re-introduced `{key}` / `$key` pattern for any key of the
scope (no substituted value re-introduces a reference syntax). -/
theorem c7_substitution_idempotent :
    ∀ (vars : VarMap) (t : Str),
      (∀ e ∈ vars,
        occursB (bracePat e.1) (substituteVariables vars t) = false ∧
        occursB ('$' :: e.1) (substituteVariables vars t) = false) →
      substituteVariables vars (substituteVariables vars t) =
        substituteVariables vars t := by
  intro vars t h
  exact substituteVariables_fixed vars (substituteVariables vars t) h

theorem c7_witness :
    substituteVariables [(str "x", str "1")]
        (substituteVariables [(str "x", str "1")] (str "a {x} b $x")) =
      substituteVariables [(str "x", str "1")] (str "a {x} b $x") :=
  c7_substitution_idempotent [(str "x", str "1")] (str "a {x} b $x") (by decide)

theorem findFirst_append {a : Char} {b l r : Str} (ha : a ∉ l) :
    findFirst (a :: b) (l ++ (a :: b) ++ r) = some l.length := by
  induction l with
  | nil =>
    have hpre : (a :: b).isPrefixOf ((a :: b) ++ r) = true := by
      rw [List.isPrefixOf_iff_prefix]; exact ⟨r, rfl⟩
    show findFirst (a :: b) ((a :: b) ++ r) = some 0
    rw [show (a :: b) ++ r = a :: (b ++ r) from rfl]
    simp [findFirst, hpre]
  | cons x l' ih =>
    have hne : (a :: b).isPrefixOf (x :: (l' ++ (a :: b) ++ r)) = false := by
      rw [Bool.eq_false_iff]
      intro hpre
      rw [List.isPrefixOf_iff_prefix] at hpre
      have : a = x := (List.cons_prefix_cons.mp hpre).1
      exact ha (this ▸ List.mem_cons_self x l')
    show findFirst (a :: b) (x :: (l' ++ (a :: b) ++ r)) = some (l'.length + 1)
    simp only [findFirst, hne, Bool.false_eq_true, if_false]
    rw [ih (fun hm => ha (List.mem_cons_of_mem x hm))]
    rfl

/-- C8: a trimmed line `NAME=value` whose name segment is nonempty and
whitespace- and `=`-free, which does not start a comment and does not
contain the override-flag tokens `-s`/`--set`/`--args`, is recognized by
the line dispatcher as a standalone assignment: the quote-trimmed
right-hand value is passed through substitution and bound to `NAME`, and
the line is not dispatched as a command (`substF` stands for the
interpreter's `ctx.SubstituteVariables`). -/
theorem c8_standalone_assignment :
    ∀ (substF : Str → Str) (vars : VarMap) (name value : Str),
      name ≠ [] →
      (∀ c ∈ name, c ≠ '=' ∧ isSpaceGo c = false) →
      name.head? ≠ some '#' →
      occursB (str "-s") (name ++ '=' :: value) = false →
      occursB (str "--set") (name ++ '=' :: value) = false →
      occursB (str "--args") (name ++ '=' :: value) = false →
      trimSpace (name ++ '=' :: value) = name ++ '=' :: value →
      execLineStep substF vars (name ++ '=' :: value) =
        .assigned (insertL name (substF (trimChars ['"', '\''] (trimSpace value))) vars) := by
  intro substF vars name value hne hnc hhash hs1 hs2 hs3 htrim
  have hline : (name ++ '=' :: value) ≠ [] := by
    cases name with
    | nil => exact absurd rfl hne
    | cons a n => simp
  have hhead : (name ++ '=' :: value).head? ≠ some '#' := by
    cases name with
    | nil => exact absurd rfl hne
    | cons a n => simpa using hhash
  have hfind : findFirst ['='] (name ++ '=' :: value) = some name.length := by
    have h := findFirst_append (b := ([] : Str)) (l := name) (r := value)
      (fun hm => (hnc '=' hm).1 rfl)
    rw [List.append_assoc] at h
    exact h
  have hocc : occursB ['='] (name ++ '=' :: value) = true := by
    rw [occursB_eq_true_iff]
    exact ⟨name, value, by simp⟩
  have hparse : parseVariableAssignment (name ++ '=' :: value) =
      some (name, trimChars ['"', '\''] (trimSpace value)) := by
    unfold parseVariableAssignment
    rw [htrim]
    rw [if_neg (by simp [hocc])]
    rw [if_neg (by
      rintro (h | h | h)
      · exact absurd h (by simp [hs1])
      · exact absurd h (by simp [hs2])
      · exact absurd h (by simp [hs3]))]
    simp only [hfind]
    have hlen : 0 < name.length := List.length_pos.mpr hne
    have htake : (name ++ '=' :: value).take name.length = name := by
      exact List.take_left name ('=' :: value)
    rw [if_pos ⟨hlen, by
      rw [htake]
      intro hmem
      exact absurd (hnc ' ' hmem).2 (by decide)⟩]
    have hdrop : (name ++ '=' :: value).drop (name.length + 1) = value := by
      have : name ++ '=' :: value = (name ++ ['=']) ++ value := by simp
      rw [this]
      have hl : (name ++ ['=']).length = name.length + 1 := by simp
      rw [← hl, List.drop_left]
    rw [htake, hdrop, trimSpace_eq_self (fun c hc => (hnc c hc).2)]
  unfold execLineStep
  rw [htrim]
  rw [if_neg (by
    rintro (h | h)
    · exact hline h
    · exact hhead h)]
  rw [hparse]

theorem c8_witness :
    execLineStep id [] (str "X" ++ '=' :: str "1") =
      .assigned (insertL (str "X")
        (id (trimChars ['"', '\''] (trimSpace (str "1")))) []) :=
  c8_standalone_assignment id [] (str "X") (str "1") (by decide) (by decide)
    (by decide) (by decide) (by decide) (by decide) (by decide)

theorem count_le_of_occursB {pat s : Str} (h : occursB pat s = true) (c : Char) :
    pat.count c ≤ s.count c :=
  ((occursB_eq_true_iff.mp h).sublist).count_le c

theorem findFirst_none_of_count {pat s : Str} {c : Char}
    (h : s.count c < pat.count c) : findFirst pat s = none := by
  rw [findFirst_eq_none_iff, Bool.eq_false_iff]
  intro hocc
  exact absurd (count_le_of_occursB hocc c) (by omega)

theorem count_cond {l r op : Str} (hl : condOperandOk l) (hr : condOperandOk r)
    {c : Char} (hc : c ∈ (['<', '>', '=', '!'] : List Char)) :
    (l ++ op ++ r).count c = op.count c := by
  have hbig : c ∈ (['<', '>', '=', '!', '"', '\''] : List Char) := by
    fin_cases hc <;> simp
  have hcl : c ∉ l := fun hm => (hl c hm).1 hbig
  have hcr : c ∉ r := fun hm => (hr c hm).1 hbig
  simp [List.count_append, List.count_eq_zero.mpr hcl, List.count_eq_zero.mpr hcr]

theorem findFirst_cond_none {l r op : Str} (hl : condOperandOk l)
    (hr : condOperandOk r) (pat : Str) {c : Char}
    (hc : c ∈ (['<', '>', '=', '!'] : List Char))
    (hcnt : op.count c < pat.count c) : findFirst pat (l ++ op ++ r) = none :=
  findFirst_none_of_count (by rw [count_cond hl hr hc]; exact hcnt)

theorem trim_cond (op : Str) {l r : Str} (hl : condOperandOk l)
    (hr : condOperandOk r) (hop : ∀ c ∈ op, isSpaceGo c = false) :
    trimSpace (l ++ op ++ r) = l ++ op ++ r := by
  refine trimSpace_eq_self ?_
  intro c hc
  rcases List.mem_append.mp hc with hc2 | hc2
  · rcases List.mem_append.mp hc2 with h | h
    · exact (hl c h).2
    · exact hop c h
  · exact (hr c hc2).2

theorem evaluateCondition_split {vars : VarMap} {l r op : Str}
    {f : Str → Str → Bool}
    (htrim : trimSpace (l ++ op ++ r) = l ++ op ++ r)
    (hpick : pickOp (l ++ op ++ r) = some (op, f, l.length))
    (hl : condOperandOk l) (hr : condOperandOk r) :
    evaluateCondition vars (l ++ op ++ r) =
      f (resolveOperand vars l) (resolveOperand vars r) := by
  have hquote : ∀ {c : Char}, c ∈ (['"', '\''] : List Char) →
      c ∈ (['<', '>', '=', '!', '"', '\''] : List Char) := by
    intro c h
    fin_cases h <;> simp
  have htake : (l ++ op ++ r).take l.length = l := by
    rw [List.append_assoc]; exact List.take_left _ _
  have hdrop : (l ++ op ++ r).drop (l.length + op.length) = r := by
    rw [← List.length_append]; exact List.drop_left _ _
  simp only [evaluateCondition, htrim, hpick]
  rw [htake, hdrop,
      trimSpace_eq_self (fun c hc => (hl c hc).2),
      trimSpace_eq_self (fun c hc => (hr c hc).2),
      trimChars_eq_self (fun c hc hm => (hl c hc).1 (hquote hm)),
      trimChars_eq_self (fun c hc hm => (hr c hc).1 (hquote hm))]

/-- C5 counterexample: the claim says that for the chosen operator the
comparison is numeric whenever both operands parse as integers, but `==`
compares strings unconditionally: in `05 == 5` both operands parse (to
the same integer 5) yet the condition evaluates to false. -/
theorem c5_counterexample :
    atoi (str "05") = some 5 ∧
    atoi (str "5") = some 5 ∧
    evaluateCondition [] (str "05 == 5") = false := by
  refine ⟨by decide, by decide, by decide⟩

/-- C5 amended: the split operator is chosen in the fixed priority order
`<=`, `>=`, `==`, `!=`, `<`, `>`, `=` (first operator of the table found
at a positive offset), operands are trimmed, unquoted and scope-resolved
when still sigil-prefixed, and the chosen entry's comparison is applied:
numeric-first with lexical fallback for the four relational operators,
but plain string comparison for `==`, `!=` and bare `=`. -/
theorem c5_operator_priority_and_semantics :
    ∀ (vars : VarMap) (l r op : Str) (f : Str → Str → Bool),
      (op, f) ∈ condOpTable → l ≠ [] → condOperandOk l → condOperandOk r →
      evaluateCondition vars (l ++ op ++ r) =
        f (resolveOperand vars l) (resolveOperand vars r) := by
  intro vars l r op f htab hlne hl hr
  have hlen0 : 0 < l.length := List.length_pos.mpr hlne
  have heq : ∀ hm : '=' ∈ l, False := fun hm => (hl '=' hm).1 (by simp)
  have hlt : ∀ hm : '<' ∈ l, False := fun hm => (hl '<' hm).1 (by simp)
  have hgt : ∀ hm : '>' ∈ l, False := fun hm => (hl '>' hm).1 (by simp)
  have hbang : ∀ hm : '!' ∈ l, False := fun hm => (hl '!' hm).1 (by simp)
  simp only [condOpTable, List.mem_cons, List.not_mem_nil, or_false,
    Prod.mk.injEq] at htab
  rcases htab with ⟨rfl, rfl⟩ | ⟨rfl, rfl⟩ | ⟨rfl, rfl⟩ | ⟨rfl, rfl⟩ |
    ⟨rfl, rfl⟩ | ⟨rfl, rfl⟩ | ⟨rfl, rfl⟩
  · -- "<="
    have hsome : findFirst (str "<=") (l ++ str "<=" ++ r) = some l.length :=
      findFirst_append (a := '<') (b := ['=']) hlt
    have hpick : pickOp (l ++ str "<=" ++ r) =
        some (str "<=", (numCmp (· ≤ ·) strLeB), l.length) := by
      simp only [pickOp, pickOpAux, condOpTable, hsome]
      rw [if_pos hlen0]
    exact evaluateCondition_split (trim_cond (str "<=") hl hr (by decide)) hpick hl hr
  · -- ">="
    have n1 : findFirst (str "<=") (l ++ str ">=" ++ r) = none :=
      findFirst_cond_none hl hr _ (c := '<') (by simp) (by decide)
    have hsome : findFirst (str ">=") (l ++ str ">=" ++ r) = some l.length :=
      findFirst_append (a := '>') (b := ['=']) hgt
    have hpick : pickOp (l ++ str ">=" ++ r) =
        some (str ">=", (numCmp (· ≥ ·) (fun a b => strLeB b a)), l.length) := by
      simp only [pickOp, pickOpAux, condOpTable, n1, hsome]
      rw [if_pos hlen0]
    exact evaluateCondition_split (trim_cond (str ">=") hl hr (by decide)) hpick hl hr
  · -- "=="
    have n1 : findFirst (str "<=") (l ++ str "==" ++ r) = none :=
      findFirst_cond_none hl hr _ (c := '<') (by simp) (by decide)
    have n2 : findFirst (str ">=") (l ++ str "==" ++ r) = none :=
      findFirst_cond_none hl hr _ (c := '>') (by simp) (by decide)
    have hsome : findFirst (str "==") (l ++ str "==" ++ r) = some l.length :=
      findFirst_append (a := '=') (b := ['=']) heq
    have hpick : pickOp (l ++ str "==" ++ r) =
        some (str "==", (fun a b => trimSpace a == trimSpace b), l.length) := by
      simp only [pickOp, pickOpAux, condOpTable, n1, n2, hsome]
      rw [if_pos hlen0]
    exact evaluateCondition_split (trim_cond (str "==") hl hr (by decide)) hpick hl hr
  · -- "!="
    have n1 : findFirst (str "<=") (l ++ str "!=" ++ r) = none :=
      findFirst_cond_none hl hr _ (c := '<') (by simp) (by decide)
    have n2 : findFirst (str ">=") (l ++ str "!=" ++ r) = none :=
      findFirst_cond_none hl hr _ (c := '>') (by simp) (by decide)
    have n3 : findFirst (str "==") (l ++ str "!=" ++ r) = none :=
      findFirst_cond_none hl hr _ (c := '=') (by simp) (by decide)
    have hsome : findFirst (str "!=") (l ++ str "!=" ++ r) = some l.length :=
      findFirst_append (a := '!') (b := ['=']) hbang
    have hpick : pickOp (l ++ str "!=" ++ r) =
        some (str "!=", (fun a b => trimSpace a != trimSpace b), l.length) := by
      simp only [pickOp, pickOpAux, condOpTable, n1, n2, n3, hsome]
      rw [if_pos hlen0]
    exact evaluateCondition_split (trim_cond (str "!=") hl hr (by decide)) hpick hl hr
  · -- "<"
    have n1 : findFirst (str "<=") (l ++ str "<" ++ r) = none :=
      findFirst_cond_none hl hr _ (c := '=') (by simp) (by decide)
    have n2 : findFirst (str ">=") (l ++ str "<" ++ r) = none :=
      findFirst_cond_none hl hr _ (c := '>') (by simp) (by decide)
    have n3 : findFirst (str "==") (l ++ str "<" ++ r) = none :=
      findFirst_cond_none hl hr _ (c := '=') (by simp) (by decide)
    have n4 : findFirst (str "!=") (l ++ str "<" ++ r) = none :=
      findFirst_cond_none hl hr _ (c := '!') (by simp) (by decide)
    have hsome : findFirst (str "<") (l ++ str "<" ++ r) = some l.length :=
      findFirst_append (a := '<') (b := []) hlt
    have hpick : pickOp (l ++ str "<" ++ r) =
        some (str "<", (numCmp (· < ·) strLtB), l.length) := by
      simp only [pickOp, pickOpAux, condOpTable, n1, n2, n3, n4, hsome]
      rw [if_pos hlen0]
    exact evaluateCondition_split (trim_cond (str "<") hl hr (by decide)) hpick hl hr
  · -- ">"
    have n1 : findFirst (str "<=") (l ++ str ">" ++ r) = none :=
      findFirst_cond_none hl hr _ (c := '<') (by simp) (by decide)
    have n2 : findFirst (str ">=") (l ++ str ">" ++ r) = none :=
      findFirst_cond_none hl hr _ (c := '=') (by simp) (by decide)
    have n3 : findFirst (str "==") (l ++ str ">" ++ r) = none :=
      findFirst_cond_none hl hr _ (c := '=') (by simp) (by decide)
    have n4 : findFirst (str "!=") (l ++ str ">" ++ r) = none :=
      findFirst_cond_none hl hr _ (c := '!') (by simp) (by decide)
    have n5 : findFirst (str "<") (l ++ str ">" ++ r) = none :=
      findFirst_cond_none hl hr _ (c := '<') (by simp) (by decide)
    have hsome : findFirst (str ">") (l ++ str ">" ++ r) = some l.length :=
      findFirst_append (a := '>') (b := []) hgt
    have hpick : pickOp (l ++ str ">" ++ r) =
        some (str ">", (numCmp (· > ·) (fun a b => strLtB b a)), l.length) := by
      simp only [pickOp, pickOpAux, condOpTable, n1, n2, n3, n4, n5, hsome]
      rw [if_pos hlen0]
    exact evaluateCondition_split (trim_cond (str ">") hl hr (by decide)) hpick hl hr
  · -- "="
    have n1 : findFirst (str "<=") (l ++ str "=" ++ r) = none :=
      findFirst_cond_none hl hr _ (c := '<') (by simp) (by decide)
    have n2 : findFirst (str ">=") (l ++ str "=" ++ r) = none :=
      findFirst_cond_none hl hr _ (c := '>') (by simp) (by decide)
    have n3 : findFirst (str "==") (l ++ str "=" ++ r) = none :=
      findFirst_cond_none hl hr _ (c := '=') (by simp) (by decide)
    have n4 : findFirst (str "!=") (l ++ str "=" ++ r) = none :=
      findFirst_cond_none hl hr _ (c := '!') (by simp) (by decide)
    have n5 : findFirst (str "<") (l ++ str "=" ++ r) = none :=
      findFirst_cond_none hl hr _ (c := '<') (by simp) (by decide)
    have n6 : findFirst (str ">") (l ++ str "=" ++ r) = none :=
      findFirst_cond_none hl hr _ (c := '>') (by simp) (by decide)
    have hsome : findFirst (str "=") (l ++ str "=" ++ r) = some l.length :=
      findFirst_append (a := '=') (b := []) heq
    have hpick : pickOp (l ++ str "=" ++ r) =
        some (str "=", (fun a b => trimSpace a == trimSpace b), l.length) := by
      simp only [pickOp, pickOpAux, condOpTable, n1, n2, n3, n4, n5, n6, hsome]
      rw [if_pos hlen0]
    exact evaluateCondition_split (trim_cond (str "=") hl hr (by decide)) hpick hl hr

theorem c5_witness :
    evaluateCondition [] (str "05" ++ str "==" ++ str "5") =
      (fun lo ro => trimSpace lo == trimSpace ro)
        (resolveOperand [] (str "05")) (resolveOperand [] (str "5")) ∧
    evaluateCondition [] (str "3" ++ str "<=" ++ str "10") =
      numCmp (· ≤ ·) strLeB (resolveOperand [] (str "3"))
        (resolveOperand [] (str "10")) :=
  ⟨c5_operator_priority_and_semantics [] (str "05") (str "5") (str "==")
      (fun lo ro => trimSpace lo == trimSpace ro)
      (by unfold condOpTable
          exact List.mem_cons_of_mem _ (List.mem_cons_of_mem _ (List.mem_cons_self _ _)))
      (by decide) (by decide) (by decide),
    c5_operator_priority_and_semantics [] (str "3") (str "10") (str "<=")
      (numCmp (· ≤ ·) strLeB)
      (by unfold condOpTable
          exact List.mem_cons_self _ _)
      (by decide) (by decide) (by decide)⟩

theorem mem_dedupAux :
    ∀ (l seen : List Str) (x : Str),
      x ∈ dedupAux seen l ↔ x ∈ l ∧ x ∉ seen := by
  intro l
  induction l with
  | nil => intro seen x; simp [dedupAux]
  | cons a rest ih =>
    intro seen x
    simp only [dedupAux]
    by_cases ha : a ∈ seen
    · rw [if_pos ha, ih]
      constructor
      · rintro ⟨h1, h2⟩
        exact ⟨List.mem_cons_of_mem a h1, h2⟩
      · rintro ⟨h1, h2⟩
        rcases List.mem_cons.mp h1 with rfl | h1
        · exact absurd ha h2
        · exact ⟨h1, h2⟩
    · rw [if_neg ha]
      simp only [List.mem_cons, ih, List.mem_cons]
      constructor
      · rintro (rfl | ⟨h1, h2⟩)
        · exact ⟨Or.inl rfl, ha⟩
        · exact ⟨Or.inr h1, fun hs => h2 (Or.inr hs)⟩
      · rintro ⟨rfl | h1, h2⟩
        · exact Or.inl rfl
        · by_cases hxa : x = a
          · exact Or.inl hxa
          · exact Or.inr ⟨h1, fun hs => (by
              rcases hs with hs | hs
              · exact hxa hs
              · exact h2 hs)⟩

theorem mem_dedupL {l : List Str} {x : Str} : x ∈ dedupL l ↔ x ∈ l := by
  rw [dedupL, mem_dedupAux]
  simp

theorem mem_validateVariables {args : List Str} {vars : VarMap} {x : Str} :
    x ∈ validateVariables args vars ↔
      x ∈ args.flatMap extractVarRefs ∧ lookupL x vars = none := by
  simp [validateVariables, List.mem_filter, mem_dedupL, Option.isNone_iff_eq_none]

/-- C2 counterexample: a brace reference `{n}` whose name is unbound in
the declared-variable (protected) scope but bound by an override passes
validation (the code checks all references against the union scope), so
`BuildCommand` succeeds and emits the unresolved literal `{n}` instead of
failing with an "undefined variables" error. -/
theorem c2_counterexample :
    buildCommand 5 false
        ⟨str "c", [], [bracePat (str "n")], []⟩ [(str "n", str "x")] =
      .ok [str "c", bracePat (str "n")] ∧
    lookupL (str "n") ([] : VarMap) = none := by
  refine ⟨by decide, by decide⟩

/-- C2 amended: whenever any reference (brace or sigil) extracted from an
argument or from a scope value is unbound in the union scope (declared
names plus override names, the `allVars` map), `BuildCommand` fails with
the single aggregated "undefined variables" error whose list holds
exactly the unbound references, and no command vector is produced. -/
theorem c2_undefined_variables_aggregated :
    ∀ (fuel : Nat) (isWin : Bool) (cfg : CommandConfig) (ov : VarMap),
      buildMissing cfg ov ≠ [] →
      buildCommand fuel isWin cfg ov =
        .err (undefinedVarsMsg (buildMissing cfg ov)) ∧
      ∀ x, x ∈ buildMissing cfg ov ↔
        (x ∈ (buildValidated cfg ov).flatMap extractVarRefs ∧
         lookupL x (buildAllVars cfg ov) = none) := by
  intro fuel isWin cfg ov h
  constructor
  · show (if buildMissing cfg ov ≠ [] then _ else _) = _
    rw [if_pos h]
    rfl
  · intro x
    exact mem_validateVariables

theorem c2_witness :
    buildCommand 3 false ⟨str "c", [], [bracePat (str "a")], []⟩ [] =
      .err (undefinedVarsMsg
        (buildMissing ⟨str "c", [], [bracePat (str "a")], []⟩ [])) ∧
    (str "a" ∈ buildMissing ⟨str "c", [], [bracePat (str "a")], []⟩ [] ↔
      (str "a" ∈ (buildValidated ⟨str "c", [], [bracePat (str "a")], []⟩ []).flatMap
          extractVarRefs ∧
       lookupL (str "a")
         (buildAllVars ⟨str "c", [], [bracePat (str "a")], []⟩ []) = none)) :=
  ⟨(c2_undefined_variables_aggregated 3 false
      ⟨str "c", [], [bracePat (str "a")], []⟩ [] (by decide)).1,
   (c2_undefined_variables_aggregated 3 false
      ⟨str "c", [], [bracePat (str "a")], []⟩ [] (by decide)).2 (str "a")⟩

theorem nameStr_no_special {n : Str} (hn : ∀ c ∈ n, isNameChar c = true) :
    '$' ∉ n ∧ '\x7b' ∉ n ∧ '\x7d' ∉ n :=
  ⟨fun h => absurd (hn _ h) (by decide), fun h => absurd (hn _ h) (by decide),
    fun h => absurd (hn _ h) (by decide)⟩

theorem occursB_cons {pat : Str} {c : Char} {s : Str} :
    occursB pat (c :: s) = (pat.isPrefixOf (c :: s) || occursB pat s) := rfl

theorem isPrefixOf_false_of_head {a c : Char} {pt s : Str} (h : a ≠ c) :
    (a :: pt).isPrefixOf (c :: s) = false := by
  rw [Bool.eq_false_iff]
  intro hp
  rw [List.isPrefixOf_iff_prefix] at hp
  exact h (List.cons_prefix_cons.mp hp).1

/-- For distinct brace-free names, `k}` is never a prefix of `n}`. -/
theorem braceKey_not_prefix :
    ∀ (k n : Str), '\x7d' ∉ k → '\x7d' ∉ n → k ≠ n →
      ¬ ((k ++ ['\x7d']) <+: (n ++ ['\x7d'])) := by
  intro k
  induction k with
  | nil =>
    intro n _ hn hne hp
    cases n with
    | nil => exact hne rfl
    | cons c n' =>
      have : '\x7d' = c := (List.cons_prefix_cons.mp hp).1
      exact hn (this ▸ List.mem_cons_self c n')
  | cons a k' ih =>
    intro n hk hn hne hp
    cases n with
    | nil =>
      have : a = '\x7d' := (List.cons_prefix_cons.mp hp).1
      exact hk (this ▸ List.mem_cons_self a k')
    | cons c n' =>
      obtain ⟨hac, hp'⟩ := List.cons_prefix_cons.mp hp
      subst hac
      exact ih n' (fun hm => hk (List.mem_cons_of_mem a hm))
        (fun hm => hn (List.mem_cons_of_mem a hm))
        (fun he => hne (he ▸ rfl)) hp'

/-- The brace placeholder of one name never occurs inside the brace
placeholder of a different brace-free name. -/
theorem bracePat_no_occ {k n : Str} (hkn : k ≠ n) (hk : '\x7d' ∉ k)
    (hn : '\x7b' ∉ n ∧ '\x7d' ∉ n) :
    occursB (bracePat k) (bracePat n) = false := by
  show occursB (bracePat k) ('\x7b' :: (n ++ ['\x7d'])) = false
  rw [occursB_cons]
  have h1 : (bracePat k).isPrefixOf ('\x7b' :: (n ++ ['\x7d'])) = false := by
    rw [Bool.eq_false_iff]
    intro hp
    rw [List.isPrefixOf_iff_prefix] at hp
    exact braceKey_not_prefix k n hk hn.2 hkn (List.cons_prefix_cons.mp hp).2
  have h2 : occursB (bracePat k) (n ++ ['\x7d']) = false := by
    refine occursB_false_of_not_mem (c := '\x7b') (by simp [bracePat]) ?_
    intro hm
    rcases List.mem_append.mp hm with hm | hm
    · exact hn.1 hm
    · simp at hm
  rw [h1, h2]
  rfl

/-- Neither sigil placeholder of any key occurs in `'$' :: rest` when
`rest` contains no `'$'` or `'\x7b'` and, for the bare pattern, the key
is not a prefix of `rest`. -/
theorem dollarBracePat_no_occ {k rest : Str}
    (hrest : '$' ∉ rest ∧ '\x7b' ∉ rest) :
    occursB (dollarBracePat k) ('$' :: rest) = false := by
  rw [occursB_cons]
  have h1 : (dollarBracePat k).isPrefixOf ('$' :: rest) = false := by
    rw [Bool.eq_false_iff]
    intro hp
    rw [List.isPrefixOf_iff_prefix] at hp
    have h2 : bracePat k <+: rest := (List.cons_prefix_cons.mp hp).2
    cases rest with
    | nil => exact absurd (List.prefix_nil.mp h2) (by simp [bracePat])
    | cons m r' =>
      have hm : '\x7b' = m := (List.cons_prefix_cons.mp h2).1
      exact hrest.2 (hm ▸ List.mem_cons_self m r')
  have h3 : occursB (dollarBracePat k) rest = false :=
    occursB_false_of_not_mem (c := '$') (by simp [dollarBracePat]) hrest.1
  rw [h1, h3]
  rfl

theorem dollarPat_no_occ {k rest : Str} (hpre : ¬ (k <+: rest))
    (hrest : '$' ∉ rest) :
    occursB ('$' :: k) ('$' :: rest) = false := by
  rw [occursB_cons]
  have h1 : ('$' :: k).isPrefixOf ('$' :: rest) = false := by
    rw [Bool.eq_false_iff]
    intro hp
    rw [List.isPrefixOf_iff_prefix] at hp
    exact hpre (List.cons_prefix_cons.mp hp).2
  have h2 : occursB ('$' :: k) rest = false :=
    occursB_false_of_not_mem (by simp) hrest
  rw [h1, h2]
  rfl

/-- Neither sigil placeholder of one name occurs in the braced sigil
placeholder of a different name. -/
theorem dollarBracePat_no_occ_in_dbr {k n : Str} (hkn : k ≠ n)
    (hk : '\x7d' ∉ k) (hn : ∀ c ∈ n, isNameChar c = true) :
    occursB (dollarBracePat k) (dollarBracePat n) = false := by
  obtain ⟨hd, hb, hcb⟩ := nameStr_no_special hn
  show occursB (dollarBracePat k) ('$' :: bracePat n) = false
  rw [occursB_cons]
  have h1 : (dollarBracePat k).isPrefixOf ('$' :: bracePat n) = false := by
    rw [Bool.eq_false_iff]
    intro hp
    rw [List.isPrefixOf_iff_prefix] at hp
    have h2 : bracePat k <+: bracePat n := (List.cons_prefix_cons.mp hp).2
    have h3 : (k ++ ['\x7d']) <+: (n ++ ['\x7d']) := (List.cons_prefix_cons.mp h2).2
    exact braceKey_not_prefix k n hk hcb hkn h3
  have h4 : occursB (dollarBracePat k) (bracePat n) = false := by
    refine occursB_false_of_not_mem (c := '$') (by simp [dollarBracePat]) ?_
    intro hm
    rcases List.mem_cons.mp hm with hm | hm
    · exact absurd hm.symm (by decide)
    · rcases List.mem_append.mp hm with hm | hm
      · exact hd hm
      · simp at hm
  rw [h1, h4]
  rfl

theorem dollarPat_no_occ_in_dbr {k n : Str} (hk : isNameStr k)
    (hn : ∀ c ∈ n, isNameChar c = true) :
    occursB ('$' :: k) (dollarBracePat n) = false := by
  obtain ⟨hd, hb, hcb⟩ := nameStr_no_special hn
  show occursB ('$' :: k) ('$' :: bracePat n) = false
  rw [occursB_cons]
  have h1 : ('$' :: k).isPrefixOf ('$' :: bracePat n) = false := by
    rw [Bool.eq_false_iff]
    intro hp
    rw [List.isPrefixOf_iff_prefix] at hp
    have h2 : k <+: bracePat n := (List.cons_prefix_cons.mp hp).2
    cases hkk : k with
    | nil => exact hk.1 hkk
    | cons a k' =>
      rw [hkk] at h2
      have ha : a = '\x7b' := (List.cons_prefix_cons.mp h2).1
      have := hk.2 a (hkk ▸ List.mem_cons_self a k')
      rw [ha] at this
      exact absurd this (by decide)
  have h3 : occursB ('$' :: k) (bracePat n) = false := by
    refine occursB_false_of_not_mem (c := '$') (by simp) ?_
    intro hm
    rcases List.mem_cons.mp hm with hm | hm
    · exact absurd hm.symm (by decide)
    · rcases List.mem_append.mp hm with hm | hm
      · exact hd hm
      · simp at hm
  rw [h1, h3]
  rfl

theorem bracePass_cons {e : Str × Str} {rest : VarMap} {s : Str} :
    bracePass (e :: rest) s = bracePass rest (replaceAll (bracePat e.1) e.2 s) := rfl

theorem bracePass_clean : ∀ (D : VarMap) {s : Str}, '\x7b' ∉ s →
    bracePass D s = s := by
  intro D
  induction D with
  | nil => intro s _; rfl
  | cons e rest ih =>
    intro s hs
    rw [bracePass_cons,
      replaceAll_of_no_occurs (occursB_false_of_not_mem (by simp [bracePat]) hs)]
    exact ih hs

theorem occursB_nil_of_ne {pat : Str} (h : pat ≠ []) : occursB pat [] = false := by
  cases pat with
  | nil => exact absurd rfl h
  | cons p0 pt => rfl

theorem replaceAll_self {pat rep : Str} (h : pat ≠ []) :
    replaceAll pat rep pat = rep := by
  have := replaceAll_append_of_no_occurs (p := pat) (q := rep) (t := [])
    h (occursB_nil_of_ne h)
  simpa using this

/-- Brace pass on a single brace reference bound in the declared map. -/
theorem bracePass_braceArg : ∀ (D : VarMap) {n v : Str},
    isNameStr n →
    (∀ e ∈ D, '\x7d' ∉ e.1 ∧ cleanVal e.2) →
    lookupL n D = some v →
    bracePass D (bracePat n) = v := by
  intro D
  induction D with
  | nil => intro n v _ _ h; simp [lookupL] at h
  | cons e rest ih =>
    intro n v hn hD hlook
    obtain ⟨k, w⟩ := e
    rw [bracePass_cons]
    by_cases hk : k = n
    · subst hk
      have hw : w = v := by simpa [lookupL] using hlook
      subst hw
      rw [replaceAll_self (by simp [bracePat])]
      exact bracePass_clean rest ((hD (k, w) (by simp)).2.2.1)
    · obtain ⟨hdn, hbn, hcn⟩ := nameStr_no_special hn.2
      rw [replaceAll_of_no_occurs
        (bracePat_no_occ hk (hD (k, w) (by simp)).1 ⟨hbn, hcn⟩)]
      exact ih hn (fun e2 he2 => hD e2 (by simp [he2]))
        (by simpa [lookupL, hk] using hlook)

/-- Brace pass on a braced sigil reference `${n}`: the inner `{n}` is
captured when `n` is declared, producing `'$'` followed by the declared
value; it is untouched when `n` is not declared. -/
theorem bracePass_dollarBraceArg : ∀ (D : VarMap) {n : Str},
    isNameStr n →
    (∀ e ∈ D, '\x7d' ∉ e.1 ∧ cleanVal e.2) →
    (∀ v, lookupL n D = some v → bracePass D (dollarBracePat n) = '$' :: v) ∧
    (lookupL n D = none → bracePass D (dollarBracePat n) = dollarBracePat n) := by
  intro D
  induction D with
  | nil =>
    intro n _ _
    exact ⟨fun v h => by simp [lookupL] at h, fun _ => rfl⟩
  | cons e rest ih =>
    intro n hn hD
    obtain ⟨k, w⟩ := e
    obtain ⟨hdn, hbn, hcn⟩ := nameStr_no_special hn.2
    constructor
    · intro v hlook
      rw [bracePass_cons]
      by_cases hk : k = n
      · subst hk
        have hw : w = v := by simpa [lookupL] using hlook
        subst hw
        show bracePass rest (replaceAll (bracePat k) w ('$' :: bracePat k)) = _
        have hskip : replaceAll (bracePat k) w ('$' :: bracePat k) =
            '$' :: replaceAll (bracePat k) w (bracePat k) :=
          replaceAll_cons_skip (by simp [bracePat])
            (isPrefixOf_false_of_head (by decide))
        rw [hskip, replaceAll_self (by simp [bracePat])]
        have hclean := (hD (k, w) (by simp)).2
        refine bracePass_clean rest ?_
        intro hm
        rcases List.mem_cons.mp hm with hm | hm
        · exact absurd hm.symm (by decide)
        · exact hclean.2.1 hm
      · show bracePass rest (replaceAll (bracePat k) w ('$' :: bracePat n)) = _
        have hskip : replaceAll (bracePat k) w ('$' :: bracePat n) =
            '$' :: replaceAll (bracePat k) w (bracePat n) :=
          replaceAll_cons_skip (by simp [bracePat])
            (isPrefixOf_false_of_head (by decide))
        rw [hskip, replaceAll_of_no_occurs
              (bracePat_no_occ hk (hD (k, w) (by simp)).1 ⟨hbn, hcn⟩)]
        exact (ih hn (fun e2 he2 => hD e2 (by simp [he2]))).1 v
          (by simpa [lookupL, hk] using hlook)
    · intro hlook
      have hk : k ≠ n := by
        intro hkk
        subst hkk
        simp [lookupL] at hlook
      rw [bracePass_cons]
      show bracePass rest (replaceAll (bracePat k) w ('$' :: bracePat n)) = _
      have hskip : replaceAll (bracePat k) w ('$' :: bracePat n) =
          '$' :: replaceAll (bracePat k) w (bracePat n) :=
        replaceAll_cons_skip (by simp [bracePat])
          (isPrefixOf_false_of_head (by decide))
      rw [hskip, replaceAll_of_no_occurs
            (bracePat_no_occ hk (hD (k, w) (by simp)).1 ⟨hbn, hcn⟩)]
      exact (ih hn (fun e2 he2 => hD e2 (by simp [he2]))).2
        (by simpa [lookupL, hk] using hlook)

theorem dollarLoop_no_occ {k v s : Str} {fuel : Nat} (hf : 1 ≤ fuel)
    (h : occursB ('$' :: k) s = false) : dollarLoop k v fuel s = .ok s := by
  cases fuel with
  | zero => omega
  | succ f => simp [dollarLoop, findFirst_eq_none_iff.mpr h]

theorem dollarLoop_exact {k v : Str} {fuel : Nat} (hf : 2 ≤ fuel)
    (hv : '$' ∉ v) : dollarLoop k v fuel ('$' :: k) = .ok v := by
  cases fuel with
  | zero => omega
  | succ f =>
    have hf1 : 1 ≤ f := by omega
    have hfind : findFirst ('$' :: k) ('$' :: k) = some 0 :=
      findFirst_self (by simp)
    have hb : ('$' :: k)[(0 + ('$' :: k).length)]? = none :=
      List.getElem?_eq_none (by simp)
    simp only [dollarLoop, hfind, hb, if_true]
    have harg : ('$' :: k).take 0 ++ v ++ ('$' :: k).drop (0 + ('$' :: k).length) = v := by
      simp
    rw [harg]
    exact dollarLoop_no_occ hf1 (occursB_false_of_not_mem (by simp) hv)

theorem substKeyDollar_of_no_occ {fuel : Nat} {k v s : Str} (hf : 1 ≤ fuel)
    (h1 : occursB (dollarBracePat k) s = false)
    (h2 : occursB ('$' :: k) s = false) :
    substKeyDollar fuel k v s = .ok s := by
  unfold substKeyDollar
  rw [replaceAll_of_no_occurs h1]
  exact dollarLoop_no_occ hf h2

theorem substDollarAll_inert {fuel : Nat} : ∀ (M : VarMap) {s : Str}, 1 ≤ fuel →
    (∀ e ∈ M, occursB (dollarBracePat e.1) s = false ∧
              occursB ('$' :: e.1) s = false) →
    substDollarAll fuel M s = .ok s := by
  intro M
  induction M with
  | nil => intro s _ _; rfl
  | cons e rest ih =>
    intro s hf h
    obtain ⟨k, w⟩ := e
    have hK : substKeyDollar fuel k w s = .ok s :=
      substKeyDollar_of_no_occ hf (h (k, w) (by simp)).1 (h (k, w) (by simp)).2
    show (match substKeyDollar fuel k w s with
      | .ok s2 => substDollarAll fuel rest s2
      | r => r) = .ok s
    rw [hK]
    exact ih hf (fun e2 he2 => h e2 (by simp [he2]))

theorem substDollarAll_cleanStr {fuel : Nat} {M : VarMap} {s : Str}
    (hf : 1 ≤ fuel) (hs : '$' ∉ s) : substDollarAll fuel M s = .ok s :=
  substDollarAll_inert M hf (fun e _ =>
    ⟨occursB_false_of_not_mem (by simp [dollarBracePat]) hs,
     occursB_false_of_not_mem (by simp) hs⟩)

/-- The sigil pass on a bare `$n` argument: the first entry whose key is
`n` replaces it by its value; entries whose keys are not prefixes of `n`
leave it alone; the replacement result is never touched again. -/
theorem substDollarAll_dollarName : ∀ (M : VarMap) {n v : Str} {fuel : Nat},
    2 ≤ fuel →
    (∀ c ∈ n, isNameChar c = true) →
    (∀ e ∈ M, cleanVal e.2) →
    (∀ e ∈ M, e.1 ≠ n → ¬ (e.1 <+: n)) →
    lookupL n M = some v →
    substDollarAll fuel M ('$' :: n) = .ok v := by
  intro M
  induction M with
  | nil => intro n v fuel _ _ _ _ h; simp [lookupL] at h
  | cons e rest ih =>
    intro n v fuel hf hn hvals hpre hlook
    obtain ⟨k, w⟩ := e
    obtain ⟨hdn, hbn, hcn⟩ := nameStr_no_special hn
    by_cases hk : k = n
    · subst hk
      have hw : w = v := by simpa [lookupL] using hlook
      subst hw
      have hK : substKeyDollar fuel k w ('$' :: k) = .ok w := by
        unfold substKeyDollar
        rw [replaceAll_of_no_occurs (dollarBracePat_no_occ ⟨hdn, hbn⟩)]
        exact dollarLoop_exact hf ((hvals (k, w) (by simp)).1)
      show (match substKeyDollar fuel k w ('$' :: k) with
        | .ok s2 => substDollarAll fuel rest s2
        | r => r) = .ok w
      rw [hK]
      exact substDollarAll_cleanStr (by omega) ((hvals (k, w) (by simp)).1)
    · have hK : substKeyDollar fuel k w ('$' :: n) = .ok ('$' :: n) :=
        substKeyDollar_of_no_occ (by omega)
          (dollarBracePat_no_occ ⟨hdn, hbn⟩)
          (dollarPat_no_occ (hpre (k, w) (by simp) hk) hdn)
      show (match substKeyDollar fuel k w ('$' :: n) with
        | .ok s2 => substDollarAll fuel rest s2
        | r => r) = .ok v
      rw [hK]
      exact ih hf hn (fun e2 he2 => hvals e2 (by simp [he2]))
        (fun e2 he2 => hpre e2 (by simp [he2]))
        (by simpa [lookupL, hk] using hlook)

/-- The sigil pass on a braced `${n}` argument (reached untouched only
when `n` is not declared): the entry for `n` replaces it wholesale. -/
theorem substDollarAll_dollarBrace : ∀ (M : VarMap) {n v : Str} {fuel : Nat},
    2 ≤ fuel →
    (∀ c ∈ n, isNameChar c = true) →
    (∀ e ∈ M, isNameStr e.1 ∧ cleanVal e.2) →
    lookupL n M = some v →
    substDollarAll fuel M (dollarBracePat n) = .ok v := by
  intro M
  induction M with
  | nil => intro n v fuel _ _ _ h; simp [lookupL] at h
  | cons e rest ih =>
    intro n v fuel hf hn hM hlook
    obtain ⟨k, w⟩ := e
    by_cases hk : k = n
    · subst hk
      have hw : w = v := by simpa [lookupL] using hlook
      subst hw
      have hK : substKeyDollar fuel k w (dollarBracePat k) = .ok w := by
        unfold substKeyDollar
        rw [replaceAll_self (by simp [dollarBracePat])]
        exact dollarLoop_no_occ (by omega)
          (occursB_false_of_not_mem (by simp) ((hM (k, w) (by simp)).2.1))
      show (match substKeyDollar fuel k w (dollarBracePat k) with
        | .ok s2 => substDollarAll fuel rest s2
        | r => r) = .ok w
      rw [hK]
      exact substDollarAll_cleanStr (by omega) ((hM (k, w) (by simp)).2.1)
    · have hkey := (hM (k, w) (by simp)).1
      have hkc : '\x7d' ∉ k := (nameStr_no_special hkey.2).2.2
      have hK : substKeyDollar fuel k w (dollarBracePat n) = .ok (dollarBracePat n) :=
        substKeyDollar_of_no_occ (by omega)
          (dollarBracePat_no_occ_in_dbr hk hkc hn)
          (dollarPat_no_occ_in_dbr hkey hn)
      show (match substKeyDollar fuel k w (dollarBracePat n) with
        | .ok s2 => substDollarAll fuel rest s2
        | r => r) = .ok v
      rw [hK]
      exact ih hf hn (fun e2 he2 => hM e2 (by simp [he2]))
        (by simpa [lookupL, hk] using hlook)

/-- The sigil pass leaves `'$'` followed by a clean value alone when no
key is a prefix of the value. -/
theorem substDollarAll_dollarClean {fuel : Nat} {M : VarMap} {v : Str}
    (hf : 1 ≤ fuel) (hv : cleanVal v) (hpre : ∀ e ∈ M, ¬ (e.1 <+: v)) :
    substDollarAll fuel M ('$' :: v) = .ok ('$' :: v) :=
  substDollarAll_inert M hf (fun e he =>
    ⟨dollarBracePat_no_occ ⟨hv.1, hv.2.1⟩,
     dollarPat_no_occ (hpre e he) hv.1⟩)

theorem lookupL_mem {k v : Str} : ∀ m : VarMap, lookupL k m = some v → (k, v) ∈ m := by
  intro m
  induction m with
  | nil => intro h; simp [lookupL] at h
  | cons e rest ih =>
    intro h
    obtain ⟨k2, w⟩ := e
    by_cases hk : k2 = k
    · subst hk
      have hw : w = v := by simpa [lookupL] using h
      subst hw
      exact List.mem_cons_self _ _
    · exact List.mem_cons_of_mem _ (ih (by simpa [lookupL, hk] using h))

theorem lookupL_none {k : Str} : ∀ m : VarMap, (∀ e ∈ m, e.1 ≠ k) →
    lookupL k m = none := by
  intro m
  induction m with
  | nil => intro _; rfl
  | cons e rest ih =>
    intro h
    obtain ⟨k2, w⟩ := e
    show (if k2 = k then some w else lookupL k rest) = none
    rw [if_neg (h (k2, w) (by simp))]
    exact ih (fun e2 he2 => h e2 (by simp [he2]))

theorem lookupL_append {j : Str} : ∀ (m m' : VarMap),
    lookupL j (m ++ m') =
      (match lookupL j m with
       | some v => some v
       | none => lookupL j m') := by
  intro m m'
  induction m with
  | nil => rfl
  | cons e rest ih =>
    obtain ⟨k2, w⟩ := e
    show (if k2 = j then some w else lookupL j (rest ++ m')) = _
    by_cases hk : k2 = j
    · simp [lookupL, hk]
    · simp only [lookupL, if_neg hk, ih]

theorem lookupL_map_ne {j k v : Str} (hjk : j ≠ k) : ∀ m : VarMap,
    lookupL j (m.map (fun e => if e.1 = k then (k, v) else e)) = lookupL j m := by
  intro m
  induction m with
  | nil => rfl
  | cons e rest ih =>
    obtain ⟨k2, w⟩ := e
    by_cases hk2 : k2 = k
    · show lookupL j ((if k2 = k then (k, v) else (k2, w)) :: _) = _
      rw [if_pos hk2]
      show (if k = j then some v else _) = (if k2 = j then some w else _)
      rw [if_neg (fun h => hjk h.symm), if_neg (fun h => hjk (hk2 ▸ h).symm)]
      exact ih
    · show lookupL j ((if k2 = k then (k, v) else (k2, w)) :: _) = _
      rw [if_neg hk2]
      show (if k2 = j then some w else _) = (if k2 = j then some w else _)
      by_cases hj : k2 = j
      · rw [if_pos hj, if_pos hj]
      · rw [if_neg hj, if_neg hj]
        exact ih

theorem lookupL_map_self {k v : Str} : ∀ m : VarMap, (lookupL k m).isSome →
    lookupL k (m.map (fun e => if e.1 = k then (k, v) else e)) = some v := by
  intro m
  induction m with
  | nil => intro h; simp [lookupL] at h
  | cons e rest ih =>
    intro h
    obtain ⟨k2, w⟩ := e
    by_cases hk2 : k2 = k
    · show lookupL k ((if k2 = k then (k, v) else (k2, w)) :: _) = _
      rw [if_pos hk2]
      show (if k = k then some v else _) = some v
      rw [if_pos rfl]
    · show lookupL k ((if k2 = k then (k, v) else (k2, w)) :: _) = _
      rw [if_neg hk2]
      show (if k2 = k then some w else _) = some v
      rw [if_neg hk2]
      exact ih (by simpa [lookupL, hk2] using h)

theorem lookupL_insertL {j k v : Str} (m : VarMap) :
    lookupL j (insertL k v m) = if j = k then some v else lookupL j m := by
  unfold insertL
  by_cases hpres : (lookupL k m).isSome = true
  · rw [if_pos hpres]
    by_cases hj : j = k
    · subst hj
      rw [if_pos rfl]
      exact lookupL_map_self m hpres
    · rw [if_neg hj]
      exact lookupL_map_ne hj m
  · rw [if_neg hpres]
    rw [lookupL_append]
    by_cases hj : j = k
    · subst hj
      have hnone : lookupL j m = none := by
        rcases h : lookupL j m with _ | v2
        · rfl
        · exact absurd (by simp [h]) hpres
      rw [hnone, if_pos rfl]
      show (if j = j then some v else none) = some v
      rw [if_pos rfl]
    · rw [if_neg hj]
      rcases h : lookupL j m with _ | v2
      · show (if k = j then some v else none) = none
        rw [if_neg (fun hh => hj hh.symm)]
      · rfl

/-- Lookup in the map built by `BuildCommand`'s merge loops matches the
specified override-wins semantics, whatever the override map's
enumeration order, as long as its keys are distinct. -/
theorem lookup_mergeMaps : ∀ (over base : VarMap) (k : Str), distinctKeys over →
    lookupL k (mergeMaps base over) = mergedLookup base over k := by
  intro over
  induction over with
  | nil => intro base k _; rfl
  | cons e rest ih =>
    intro base k hdist
    obtain ⟨k2, v2⟩ := e
    have hdist' : distinctKeys rest := (List.pairwise_cons.mp hdist).2
    have hk2 : ∀ e2 ∈ rest, k2 ≠ e2.1 :=
      fun e2 he2 => (List.pairwise_cons.mp hdist).1 e2 he2
    show lookupL k (mergeMaps (insertL k2 v2 base) rest) = _
    rw [ih _ _ hdist']
    unfold mergedLookup
    by_cases hk : k2 = k
    · subst hk
      have hnone : lookupL k2 rest = none :=
        lookupL_none rest (fun e2 he2 => (hk2 e2 he2).symm)
      rw [hnone]
      show lookupL k2 (insertL k2 v2 base) = _
      rw [lookupL_insertL, if_pos rfl]
      show _ = (match (if k2 = k2 then some v2 else lookupL k2 rest) with
        | some v => some v
        | none => lookupL k2 base)
      rw [if_pos rfl]
    · show (match lookupL k rest with
        | some v => some v
        | none => lookupL k (insertL k2 v2 base)) = _
      show _ = (match (if k2 = k then some v2 else lookupL k rest) with
        | some v => some v
        | none => lookupL k base)
      rw [if_neg hk, lookupL_insertL, if_neg (fun h => hk h.symm)]

/-- C1 counterexample: with `n` declared as `A` and overridden as `B`,
the braced sigil reference `${n}` does not resolve to the override `B`:
the brace pass replaces the inner `{n}` first, so `BuildCommand` yields
the argument `$A`. -/
theorem c1_counterexample :
    buildCommand 5 false
        ⟨str "c", [], [dollarBracePat (str "n")], [(str "n", str "A")]⟩
        [(str "n", str "B")] =
      .ok [str "c", '$' :: str "A"] ∧
    mergedLookup [(str "n", str "A")] [(str "n", str "B")] (str "n") =
      some (str "B") ∧
    ('$' :: str "A") ≠ str "B" := by
  refine ⟨by decide, by decide, by decide⟩

/-- C1 amended: the overridable (`dollarVars`) scope built by
`BuildCommand` resolves every name to the override value when present
and the declared value otherwise (first conjunct); under that scope, a
brace argument `{n}` resolves to the declared value regardless of the
sigil scope, a bare sigil argument `$n` resolves to the sigil scope's
value for `n` (provided no other bound name is a prefix of `n`, which
otherwise makes the replacement loop diverge), and a braced sigil
argument `${n}` resolves to the sigil scope's value only when `n` is not
declared — when `n` is declared it is captured by the brace pass and
yields `'$'` followed by the declared value. -/
theorem c1_scope_resolution :
    (∀ (base over : VarMap) (k : Str), distinctKeys over →
      lookupL k (mergeMaps base over) = mergedLookup base over k) ∧
    (∀ (fuel : Nat) (Dl Ml : VarMap) (n : Str),
      2 ≤ fuel → isNameStr n →
      (∀ e ∈ Dl, '\x7d' ∉ e.1 ∧ cleanVal e.2) →
      (∀ e ∈ Ml, isNameStr e.1 ∧ cleanVal e.2) →
      (∀ v, lookupL n Dl = some v →
        substSeparate fuel Dl Ml (bracePat n) = .ok v) ∧
      (∀ v, lookupL n Ml = some v →
        (∀ e ∈ Ml, e.1 ≠ n → ¬ (e.1 <+: n)) →
        substSeparate fuel Dl Ml ('$' :: n) = .ok v) ∧
      (∀ v, lookupL n Dl = some v →
        (∀ e ∈ Ml, ¬ (e.1 <+: v)) →
        substSeparate fuel Dl Ml (dollarBracePat n) = .ok ('$' :: v)) ∧
      (∀ v, lookupL n Dl = none → lookupL n Ml = some v →
        substSeparate fuel Dl Ml (dollarBracePat n) = .ok v)) := by
  constructor
  · intro base over k h
    exact lookup_mergeMaps over base k h
  · intro fuel Dl Ml n hf hn hD hM
    obtain ⟨hdn, hbn, hcn⟩ := nameStr_no_special hn.2
    refine ⟨?_, ?_, ?_, ?_⟩
    · intro v hlook
      show substDollarAll fuel Ml (bracePass Dl (bracePat n)) = .ok v
      rw [bracePass_braceArg Dl hn hD hlook]
      exact substDollarAll_cleanStr (by omega)
        ((hD (n, v) (lookupL_mem Dl hlook)).2.1)
    · intro v hlook hpre
      show substDollarAll fuel Ml (bracePass Dl ('$' :: n)) = .ok v
      rw [bracePass_clean Dl (by
        intro hm
        rcases List.mem_cons.mp hm with hm | hm
        · exact absurd hm.symm (by decide)
        · exact hbn hm)]
      exact substDollarAll_dollarName Ml hf hn.2
        (fun e he => (hM e he).2) hpre hlook
    · intro v hlook hpre
      show substDollarAll fuel Ml (bracePass Dl (dollarBracePat n)) = .ok ('$' :: v)
      rw [(bracePass_dollarBraceArg Dl hn hD).1 v hlook]
      exact substDollarAll_dollarClean (by omega)
        ((hD (n, v) (lookupL_mem Dl hlook)).2) hpre
    · intro v hnone hlook
      show substDollarAll fuel Ml (bracePass Dl (dollarBracePat n)) = .ok v
      rw [(bracePass_dollarBraceArg Dl hn hD).2 hnone]
      exact substDollarAll_dollarBrace Ml hf hn.2 hM hlook

theorem c1_witness :
    lookupL (str "n") (mergeMaps [(str "n", str "A")] [(str "n", str "B")]) =
      mergedLookup [(str "n", str "A")] [(str "n", str "B")] (str "n") ∧
    substSeparate 2 [(str "n", str "A")] [(str "n", str "B")]
      (bracePat (str "n")) = .ok (str "A") ∧
    substSeparate 2 [(str "n", str "A")] [(str "n", str "B")]
      ('$' :: str "n") = .ok (str "B") :=
  ⟨c1_scope_resolution.1 [(str "n", str "A")] [(str "n", str "B")] (str "n")
      (by decide),
   (c1_scope_resolution.2 2 [(str "n", str "A")] [(str "n", str "B")] (str "n")
      (le_refl 2) (by decide) (by decide) (by decide)).1 (str "A") (by decide),
   (c1_scope_resolution.2 2 [(str "n", str "A")] [(str "n", str "B")] (str "n")
      (le_refl 2) (by decide) (by decide) (by decide)).2.1 (str "B") (by decide)
      (by decide)⟩

theorem c4_witness :
    evaluateArithmetic (str "2+3*4") =
      intToStr (foldArith 2 [(str "+", str "3"), (str "*", str "4")]) ∧
    evaluateArithmetic (str "abc") = str "0" :=
  ⟨c4_left_to_right_no_precedence.1 (str "2+3*4") (str "2")
      [(str "+", str "3"), (str "*", str "4")] 2 (by decide) (by decide) (by decide),
    c4_left_to_right_no_precedence.2.1 (str "abc") (str "abc") [] (by decide)
      (by decide) (by decide)⟩

end Linea
